import Mathlib

/-! Affine geometry kernel of `fitz/base_geometry.c`.

A shallow embedding of the matrix, point and rectangle operations of
`src/fitz/base_geometry.c`.  The C `float` fields are embedded as rationals:
every statement below is about the exact arithmetic of the formulas in the
source, not about IEEE rounding.  The C `int` fields are embedded as
integers, with the 32-bit wrap-around made explicit where the source adds.
The loops of `fz_rotate` carry a bound on their iterations, and the
functions `sinf` and `cosf` are parameters of it.  The function
`fz_expand_rect` takes the rounding of a result to `float` as a parameter.
-/

/-! ## Data model -/

/-- The six coefficients of an affine map, `fz_matrix`. -/
structure fz_matrix where
  a : ℚ
  b : ℚ
  c : ℚ
  d : ℚ
  e : ℚ
  f : ℚ
  deriving DecidableEq

/-- A coordinate pair, `fz_point`. -/
structure fz_point where
  x : ℚ
  y : ℚ
  deriving DecidableEq

/-- A rectangle with rational corners, `fz_rect`. -/
structure fz_rect where
  x0 : ℚ
  y0 : ℚ
  x1 : ℚ
  y1 : ℚ
  deriving DecidableEq

/-- A rectangle with integer corners, `fz_irect`. -/
structure fz_irect where
  x0 : Int
  y0 : Int
  x1 : Int
  y1 : Int
  deriving DecidableEq

/-! ## Constants of the C environment -/

/-- The `FLT_EPSILON` of `<float.h>` for IEEE single precision, `2^-23`. -/
def FLT_EPSILON : ℚ := 1 / 8388608

/-- The `INT_MIN` of `<limits.h>` for a 32-bit `int`. -/
def INT_MIN : Int := -2147483648

/-- The `INT_MAX` of `<limits.h>` for a 32-bit `int`. -/
def INT_MAX : Int := 2147483647

/-- A value that a 32-bit `int` can hold. -/
def isInt32 (v : Int) : Prop := INT_MIN ≤ v ∧ v ≤ INT_MAX

instance (v : Int) : Decidable (isInt32 v) := by
  unfold isInt32; exact inferInstance

/-- Two's complement wrap-around of an integer into the 32-bit range: what
the machine addition of two `int`s leaves in the destination. -/
def wrap32 (v : Int) : Int := (v + 2147483648) % 4294967296 - 2147483648

/-! ## Helpers of `fitz-internal.h` -/

/-- Modelled from the spec: `fz_min` of `fitz-internal.h` (the header is not
part of the sources), the smaller of two floats. -/
def fz_min (a b : ℚ) : ℚ := if a < b then a else b

/-- Modelled from the spec: `fz_max` of `fitz-internal.h` (the header is not
part of the sources), the larger of two floats. -/
def fz_max (a b : ℚ) : ℚ := if a > b then a else b

/-- Modelled from the spec: `fz_mini` of `fitz-internal.h` (the header is not
part of the sources), the smaller of two ints. -/
def fz_mini (a b : Int) : Int := if a < b then a else b

/-- Modelled from the spec: `fz_maxi` of `fitz-internal.h` (the header is not
part of the sources), the larger of two ints. -/
def fz_maxi (a b : Int) : Int := if a > b then a else b

/-- The macro `MAX4` of the source. -/
def MAX4 (a b c d : ℚ) : ℚ := fz_max (fz_max a b) (fz_max c d)

/-- The macro `MIN4` of the source. -/
def MIN4 (a b c d : ℚ) : ℚ := fz_min (fz_min a b) (fz_min c d)

/-! ## Matrices, points and affine transformations -/

/-- The constant `fz_identity`. -/
def fz_identity : fz_matrix := ⟨1, 0, 0, 1, 0, 0⟩

/-- The function `fz_concat`. -/
def fz_concat (one two : fz_matrix) : fz_matrix :=
  { a := one.a * two.a + one.b * two.c
    b := one.a * two.b + one.b * two.d
    c := one.c * two.a + one.d * two.c
    d := one.c * two.b + one.d * two.d
    e := one.e * two.a + one.f * two.c + two.e
    f := one.e * two.b + one.f * two.d + two.f }

/-- The determinant `src.a * src.d - src.b * src.c` that `fz_invert_matrix`
computes first. -/
def fz_det (src : fz_matrix) : ℚ := src.a * src.d - src.b * src.c

/-- The function `fz_invert_matrix`. -/
def fz_invert_matrix (src : fz_matrix) : fz_matrix :=
  let det := fz_det src
  if det < -FLT_EPSILON ∨ det > FLT_EPSILON then
    let rdet := 1 / det
    let da := src.d * rdet
    let db := -src.b * rdet
    let dc := -src.c * rdet
    let dd := src.a * rdet
    { a := da
      b := db
      c := dc
      d := dd
      e := -src.e * da - src.f * dc
      f := -src.e * db - src.f * dd }
  else src

/-- The function `fz_transform_point`. -/
def fz_transform_point (m : fz_matrix) (p : fz_point) : fz_point :=
  { x := p.x * m.a + p.y * m.c + m.e
    y := p.x * m.b + p.y * m.d + m.f }

/-! ## Rectangles and bounding boxes -/

/-- The constant `fz_infinite_rect`. -/
def fz_infinite_rect : fz_rect := ⟨1, 1, -1, -1⟩

/-- The constant `fz_empty_rect`. -/
def fz_empty_rect : fz_rect := ⟨0, 0, 0, 0⟩

/-- The constant `fz_infinite_irect`. -/
def fz_infinite_irect : fz_irect := ⟨1, 1, -1, -1⟩

/-- The constant `fz_empty_irect`. -/
def fz_empty_irect : fz_irect := ⟨0, 0, 0, 0⟩

/-- Modelled from the spec: the macro `fz_is_empty_rect` of `fitz-internal.h`
(the header is not part of the sources), at type `fz_rect`: exact field
equality with the empty sentinel. -/
def fz_is_empty_rect (r : fz_rect) : Prop := r = fz_empty_rect

/-- Modelled from the spec: the macro `fz_is_infinite_rect` of
`fitz-internal.h` (the header is not part of the sources), at type `fz_rect`:
exact field equality with the infinite sentinel. -/
def fz_is_infinite_rect (r : fz_rect) : Prop := r = fz_infinite_rect

/-- Modelled from the spec: the macro `fz_is_empty_rect` of `fitz-internal.h`
(the header is not part of the sources), at type `fz_irect`: exact field
equality with the empty sentinel. -/
def fz_is_empty_irect (r : fz_irect) : Prop := r = fz_empty_irect

/-- Modelled from the spec: the macro `fz_is_infinite_rect` of
`fitz-internal.h` (the header is not part of the sources), at type
`fz_irect`: exact field equality with the infinite sentinel. -/
def fz_is_infinite_irect (r : fz_irect) : Prop := r = fz_infinite_irect

instance (r : fz_rect) : Decidable (fz_is_empty_rect r) := by
  unfold fz_is_empty_rect; exact inferInstance

instance (r : fz_rect) : Decidable (fz_is_infinite_rect r) := by
  unfold fz_is_infinite_rect; exact inferInstance

instance (r : fz_irect) : Decidable (fz_is_empty_irect r) := by
  unfold fz_is_empty_irect; exact inferInstance

instance (r : fz_irect) : Decidable (fz_is_infinite_irect r) := by
  unfold fz_is_infinite_irect; exact inferInstance

/-- The function `fz_intersect_rect`. -/
def fz_intersect_rect (a b : fz_rect) : fz_rect :=
  if fz_is_empty_rect a then fz_empty_rect
  else if fz_is_empty_rect b then fz_empty_rect
  else if fz_is_infinite_rect a then b
  else if fz_is_infinite_rect b then a
  else
    let r : fz_rect :=
      { x0 := fz_max a.x0 b.x0
        y0 := fz_max a.y0 b.y0
        x1 := fz_min a.x1 b.x1
        y1 := fz_min a.y1 b.y1 }
    if r.x1 < r.x0 ∨ r.y1 < r.y0 then fz_empty_rect else r

/-- The function `fz_intersect_irect`. -/
def fz_intersect_irect (a b : fz_irect) : fz_irect :=
  if fz_is_empty_irect a then fz_empty_irect
  else if fz_is_empty_irect b then fz_empty_irect
  else if fz_is_infinite_irect a then b
  else if fz_is_infinite_irect b then a
  else
    let r : fz_irect :=
      { x0 := fz_maxi a.x0 b.x0
        y0 := fz_maxi a.y0 b.y0
        x1 := fz_mini a.x1 b.x1
        y1 := fz_mini a.y1 b.y1 }
    if r.x1 < r.x0 ∨ r.y1 < r.y0 then fz_empty_irect else r

/-- The function `fz_union_rect`. -/
def fz_union_rect (a b : fz_rect) : fz_rect :=
  if fz_is_empty_rect a then b
  else if fz_is_empty_rect b then a
  else if fz_is_infinite_rect a then a
  else if fz_is_infinite_rect b then b
  else
    { x0 := fz_min a.x0 b.x0
      y0 := fz_min a.y0 b.y0
      x1 := fz_max a.x1 b.x1
      y1 := fz_max a.y1 b.y1 }

/-- The function `fz_transform_rect`. -/
def fz_transform_rect (m : fz_matrix) (r : fz_rect) : fz_rect :=
  if fz_is_infinite_rect r then r
  else
    let s := fz_transform_point m ⟨r.x0, r.y0⟩
    let t := fz_transform_point m ⟨r.x0, r.y1⟩
    let u := fz_transform_point m ⟨r.x1, r.y1⟩
    let v := fz_transform_point m ⟨r.x1, r.y0⟩
    { x0 := MIN4 s.x t.x u.x v.x
      y0 := MIN4 s.y t.y u.y v.y
      x1 := MAX4 s.x t.x u.x v.x
      y1 := MAX4 s.y t.y u.y v.y }

/-- The expression `(~(a)^(x))&((a)^(b))` that `ADD_WITH_SAT` compares with
zero; on integers the bitwise operations are those of two's complement with
the sign extended, so its sign is the sign bit of the 32-bit expression. -/
def ADD_WITH_SAT_test (a x b : Int) : Int :=
  Int.land (Int.xor (Int.not a) x) (Int.xor a b)

/-- The macro `ADD_WITH_SAT(b, a, x)` of the source, as the value it leaves
in `b`: the wrapped 32-bit sum `a + x`, replaced by `INT_MIN` or `INT_MAX`
when the sign bit of `(~a ^ x) & (a ^ b)` is set, that is when the
expression is negative. -/
def ADD_WITH_SAT (a x : Int) : Int :=
  let b := wrap32 (a + x)
  if ADD_WITH_SAT_test a x b < 0 then
    (if x < 0 then INT_MIN else INT_MAX)
  else b

/-- The function `fz_translate_irect`. -/
def fz_translate_irect (a : fz_irect) (xoff yoff : Int) : fz_irect :=
  if fz_is_empty_irect a then a
  else if fz_is_infinite_irect a then a
  else
    { x0 := ADD_WITH_SAT a.x0 xoff
      y0 := ADD_WITH_SAT a.y0 yoff
      x1 := ADD_WITH_SAT a.x1 xoff
      y1 := ADD_WITH_SAT a.y1 yoff }

/-- The mathematical sum of a coordinate and its offset, clamped to the
range of a 32-bit `int`. -/
def clampInt32 (v : Int) : Int :=
  if v < INT_MIN then INT_MIN else if v > INT_MAX then INT_MAX else v

/-! ## Rotation -/

/-- The first loop of `fz_rotate`, `while (theta < 0) theta += 360;`, run
with a bound on the number of times its body is executed: `none` when the
bound is reached with the condition still true. -/
def fz_rotate_loop_neg : Nat → ℚ → Option ℚ
  | 0, theta => if theta < 0 then none else some theta
  | fuel + 1, theta =>
    if theta < 0 then fz_rotate_loop_neg fuel (theta + 360) else some theta

/-- The second loop of `fz_rotate`, `while (theta >= 360) theta -= 360;`, run
with a bound on the number of times its body is executed: `none` when the
bound is reached with the condition still true. -/
def fz_rotate_loop_big : Nat → ℚ → Option ℚ
  | 0, theta => if theta ≥ 360 then none else some theta
  | fuel + 1, theta =>
    if theta ≥ 360 then fz_rotate_loop_big fuel (theta - 360) else some theta

/-- The two normalisation loops of `fz_rotate` in sequence, each with the
given bound on its iterations. -/
def fz_rotate_normalize (fuel : Nat) (theta : ℚ) : Option ℚ :=
  match fz_rotate_loop_neg fuel theta with
  | none => none
  | some t => fz_rotate_loop_big fuel t

/-- The part of `fz_rotate` after the loops: the choice of sine and cosine
and the matrix built from them.  The functions `sinf`, `cosf` and the
constant `M_PI` of `<math.h>` are parameters. -/
def fz_rotate_matrix (sinf cosf : ℚ → ℚ) (M_PI : ℚ) (theta : ℚ) : fz_matrix :=
  let sc : ℚ × ℚ :=
    if |0 - theta| < FLT_EPSILON then (0, 1)
    else if |90 - theta| < FLT_EPSILON then (1, 0)
    else if |180 - theta| < FLT_EPSILON then (0, -1)
    else if |270 - theta| < FLT_EPSILON then (-1, 0)
    else (sinf (theta * M_PI / 180), cosf (theta * M_PI / 180))
  let s := sc.1
  let c := sc.2
  { a := c
    b := s
    c := -s
    d := c
    e := 0
    f := 0 }

/-- The function `fz_rotate`, with a bound on the iterations of each of its
loops: `none` when a loop is still running at the bound. -/
def fz_rotate (sinf cosf : ℚ → ℚ) (M_PI : ℚ) (fuel : Nat) (theta : ℚ) :
    Option fz_matrix :=
  match fz_rotate_normalize fuel theta with
  | none => none
  | some t => some (fz_rotate_matrix sinf cosf M_PI t)

/-- The function `fz_transform_vector`. -/
def fz_transform_vector (m : fz_matrix) (p : fz_point) : fz_point :=
  { x := p.x * m.a + p.y * m.c
    y := p.x * m.b + p.y * m.d }

/-! ## Conversions between rational and integer rectangles -/

/-- The constant `MAX_SAFE_INT` of the source. -/
def MAX_SAFE_INT : Int := 16777216

/-- The constant `MIN_SAFE_INT` of the source. -/
def MIN_SAFE_INT : Int := -16777216

/-- Modelled from the spec: `fz_clamp` of `fitz-internal.h` (the header is
not part of the sources), a float forced into the range from `min` to
`max`. -/
def fz_clamp (f min max : ℚ) : ℚ := if f > min then (if f < max then f else max) else min

/-- The `floorf` of `<math.h>`, with its result as a float. -/
def floorf (x : ℚ) : ℚ := (⌊x⌋ : Int)

/-- The `ceilf` of `<math.h>`, with its result as a float. -/
def ceilf (x : ℚ) : ℚ := (⌈x⌉ : Int)

/-- The C conversion of a float to an `int` in an assignment: the fraction
is discarded, rounding toward zero. -/
def float_to_int (x : ℚ) : Int := if 0 ≤ x then ⌊x⌋ else ⌈x⌉

/-- The function `fz_rect_covering_rect`. -/
def fz_rect_covering_rect (a : fz_rect) : fz_irect :=
  let x0 := floorf a.x0
  let y0 := floorf a.y0
  let x1 := ceilf a.x1
  let y1 := ceilf a.y1
  { x0 := float_to_int (fz_clamp x0 MIN_SAFE_INT MAX_SAFE_INT)
    y0 := float_to_int (fz_clamp y0 MIN_SAFE_INT MAX_SAFE_INT)
    x1 := float_to_int (fz_clamp x1 MIN_SAFE_INT MAX_SAFE_INT)
    y1 := float_to_int (fz_clamp y1 MIN_SAFE_INT MAX_SAFE_INT) }

/-- The function `fz_rect_from_irect`. -/
def fz_rect_from_irect (a : fz_irect) : fz_rect :=
  { x0 := a.x0
    y0 := a.y0
    x1 := a.x1
    y1 := a.y1 }

/-- The function `fz_round_rect`. -/
def fz_round_rect (a : fz_rect) : fz_irect :=
  let x0 := floorf (a.x0 + 0.001)
  let y0 := floorf (a.y0 + 0.001)
  let x1 := ceilf (a.x1 - 0.001)
  let y1 := ceilf (a.y1 - 0.001)
  { x0 := float_to_int (fz_clamp x0 MIN_SAFE_INT MAX_SAFE_INT)
    y0 := float_to_int (fz_clamp y0 MIN_SAFE_INT MAX_SAFE_INT)
    x1 := float_to_int (fz_clamp x1 MIN_SAFE_INT MAX_SAFE_INT)
    y1 := float_to_int (fz_clamp y1 MIN_SAFE_INT MAX_SAFE_INT) }

/-- The function `fz_expand_rect`.  Each of its four results is a `float`
subtraction or addition, that is the exact difference or sum rounded to a
`float`; the rounding `fl` is a parameter, and `id` is arithmetic taken
exactly. -/
def fz_expand_rect (fl : ℚ → ℚ) (a : fz_rect) (expand : ℚ) : fz_rect :=
  if fz_is_empty_rect a then a
  else if fz_is_infinite_rect a then a
  else
    { x0 := fl (a.x0 - expand)
      y0 := fl (a.y0 - expand)
      x1 := fl (a.x1 + expand)
      y1 := fl (a.y1 + expand) }

/-! ## Theorems: matrices -/

/-- Claim C1: transforming a point by `fz_concat A B` is transforming it by
`A` first and by `B` next. -/
theorem fz_transform_point_concat (A B : fz_matrix) (P : fz_point) :
    fz_transform_point (fz_concat A B) P
      = fz_transform_point B (fz_transform_point A P) := by
  simp only [fz_transform_point, fz_concat, fz_point.mk.injEq]
  constructor <;> ring

/-- Claim C10: `fz_concat` is associative in all six fields. -/
theorem fz_concat_assoc (A B C : fz_matrix) :
    fz_concat (fz_concat A B) C = fz_concat A (fz_concat B C) := by
  simp only [fz_concat, fz_matrix.mk.injEq]
  refine ⟨?_, ?_, ?_, ?_, ?_, ?_⟩ <;> ring

/-- Claim C4: a matrix whose determinant is within `FLT_EPSILON` of zero is
returned by `fz_invert_matrix` unchanged in all six fields; the function is
total and has no failure value. -/
theorem fz_invert_matrix_near_singular (M : fz_matrix)
    (h : |M.a * M.d - M.b * M.c| ≤ FLT_EPSILON) :
    fz_invert_matrix M = M := by
  have h2 := abs_le.mp h
  have hn : ¬ (fz_det M < -FLT_EPSILON ∨ fz_det M > FLT_EPSILON) := by
    unfold fz_det
    rintro (h3 | h3) <;> linarith [h2.1, h2.2]
  simp only [fz_invert_matrix, if_neg hn]

/-- Witness for C4: the zero-determinant matrix `(1,2,2,4,5,6)`. -/
theorem fz_invert_matrix_near_singular_witness :
    |(1 : ℚ) * 4 - 2 * 2| ≤ FLT_EPSILON ∧
      fz_invert_matrix ⟨1, 2, 2, 4, 5, 6⟩ = ⟨1, 2, 2, 4, 5, 6⟩ :=
  ⟨by norm_num [FLT_EPSILON],
   fz_invert_matrix_near_singular ⟨1, 2, 2, 4, 5, 6⟩ (by norm_num [FLT_EPSILON])⟩

/-- The test of `fz_invert_matrix` succeeds exactly when the determinant
is farther than `FLT_EPSILON` from zero. -/
theorem fz_invert_guard_iff (M : fz_matrix) :
    (fz_det M < -FLT_EPSILON ∨ fz_det M > FLT_EPSILON) ↔ FLT_EPSILON < |fz_det M| := by
  rw [lt_abs]
  constructor
  · rintro (h | h)
    · right; linarith
    · left; exact h
  · rintro (h | h)
    · right; exact h
    · left; linarith

/-- The value of `fz_invert_matrix` on a matrix that passes its test. -/
theorem fz_invert_matrix_of_guard (M : fz_matrix) (h : FLT_EPSILON < |fz_det M|) :
    fz_invert_matrix M =
      { a := M.d * (1 / fz_det M)
        b := -M.b * (1 / fz_det M)
        c := -M.c * (1 / fz_det M)
        d := M.a * (1 / fz_det M)
        e := -M.e * (M.d * (1 / fz_det M)) - M.f * (-M.c * (1 / fz_det M))
        f := -M.e * (-M.b * (1 / fz_det M)) - M.f * (M.a * (1 / fz_det M)) } := by
  simp only [fz_invert_matrix, if_pos ((fz_invert_guard_iff M).mpr h)]

/-- `FLT_EPSILON` is positive. -/
theorem FLT_EPSILON_pos : 0 < FLT_EPSILON := by
  norm_num [FLT_EPSILON]

/-- A matrix that passes the test of `fz_invert_matrix` has a nonzero
determinant. -/
theorem fz_det_ne_zero_of_guard (M : fz_matrix) (h : FLT_EPSILON < |fz_det M|) :
    fz_det M ≠ 0 := by
  intro h0
  rw [h0, abs_zero] at h
  exact absurd h (not_lt.mpr FLT_EPSILON_pos.le)

/-- Claim C2: when the determinant is farther than `FLT_EPSILON` from zero,
`fz_invert_matrix M` is a two-sided inverse of `M` under `fz_concat`,
translation part included. -/
theorem fz_invert_matrix_two_sided (M : fz_matrix)
    (h : |M.a * M.d - M.b * M.c| > FLT_EPSILON) :
    fz_concat M (fz_invert_matrix M) = fz_identity ∧
      fz_concat (fz_invert_matrix M) M = fz_identity := by
  have hg : FLT_EPSILON < |fz_det M| := h
  have hd : fz_det M ≠ 0 := fz_det_ne_zero_of_guard M hg
  have hd2 : M.a * M.d - M.b * M.c ≠ 0 := hd
  rw [fz_invert_matrix_of_guard M hg]
  simp only [fz_concat, fz_identity, fz_matrix.mk.injEq, fz_det]
  refine ⟨⟨?_, ?_, ?_, ?_, ?_, ?_⟩, ⟨?_, ?_, ?_, ?_, ?_, ?_⟩⟩ <;>
    field_simp <;> ring

/-- Witness for C2: the matrix `(2,0,0,2,3,4)`, of determinant 4. -/
theorem fz_invert_matrix_two_sided_witness :
    |(2 : ℚ) * 2 - 0 * 0| > FLT_EPSILON ∧
      fz_concat ⟨2, 0, 0, 2, 3, 4⟩ (fz_invert_matrix ⟨2, 0, 0, 2, 3, 4⟩) = fz_identity ∧
      fz_concat (fz_invert_matrix ⟨2, 0, 0, 2, 3, 4⟩) ⟨2, 0, 0, 2, 3, 4⟩ = fz_identity :=
  ⟨by norm_num [FLT_EPSILON],
   fz_invert_matrix_two_sided ⟨2, 0, 0, 2, 3, 4⟩ (by norm_num [FLT_EPSILON])⟩

/-- The determinant of the matrix returned by `fz_invert_matrix`, on a matrix
that passes its test, is the reciprocal of the determinant. -/
theorem fz_det_invert_matrix (M : fz_matrix) (h : FLT_EPSILON < |fz_det M|) :
    fz_det (fz_invert_matrix M) = 1 / fz_det M := by
  have hd : fz_det M ≠ 0 := fz_det_ne_zero_of_guard M h
  rw [fz_invert_matrix_of_guard M h]
  have key : M.d * (1 / fz_det M) * (M.a * (1 / fz_det M))
      - -M.b * (1 / fz_det M) * (-M.c * (1 / fz_det M))
      = (M.a * M.d - M.b * M.c) * (1 / fz_det M) * (1 / fz_det M) := by ring
  show M.d * (1 / fz_det M) * (M.a * (1 / fz_det M))
      - -M.b * (1 / fz_det M) * (-M.c * (1 / fz_det M)) = 1 / fz_det M
  rw [key]
  have hdet : M.a * M.d - M.b * M.c = fz_det M := rfl
  rw [hdet]
  field_simp

/-- Counterexample to C3 as stated: the scaling by 4096 has determinant
`2^24`, its inverse has determinant `2^-24`, which is within `FLT_EPSILON` of
zero, so the second inversion returns the inverse itself and not the
original matrix. -/
theorem fz_invert_matrix_twice_counterexample :
    |(4096 : ℚ) * 4096 - 0 * 0| > FLT_EPSILON ∧
      fz_invert_matrix (fz_invert_matrix ⟨4096, 0, 0, 4096, 0, 0⟩)
        = ⟨1 / 4096, 0, 0, 1 / 4096, 0, 0⟩ ∧
      fz_invert_matrix (fz_invert_matrix ⟨4096, 0, 0, 4096, 0, 0⟩)
        ≠ ⟨4096, 0, 0, 4096, 0, 0⟩ := by
  have e1 : fz_invert_matrix ⟨4096, 0, 0, 4096, 0, 0⟩
      = ⟨1 / 4096, 0, 0, 1 / 4096, 0, 0⟩ := by
    norm_num [fz_invert_matrix, fz_det, FLT_EPSILON]
  have e2 : fz_invert_matrix ⟨1 / 4096, 0, 0, 1 / 4096, 0, 0⟩
      = ⟨1 / 4096, 0, 0, 1 / 4096, 0, 0⟩ := by
    norm_num [fz_invert_matrix, fz_det, FLT_EPSILON]
  refine ⟨by norm_num [FLT_EPSILON], ?_, ?_⟩
  · rw [e1, e2]
  · rw [e1, e2]
    intro hc
    have ha := congrArg fz_matrix.a hc
    norm_num at ha

/-- Claim C3, amended: when the determinant lies strictly between
`FLT_EPSILON` and `1 / FLT_EPSILON` in absolute value, inverting twice gives
the matrix back. -/
theorem fz_invert_matrix_twice (M : fz_matrix)
    (h : |M.a * M.d - M.b * M.c| > FLT_EPSILON)
    (h2 : |M.a * M.d - M.b * M.c| < 1 / FLT_EPSILON) :
    fz_invert_matrix (fz_invert_matrix M) = M := by
  have hg : FLT_EPSILON < |fz_det M| := h
  have hd : fz_det M ≠ 0 := fz_det_ne_zero_of_guard M hg
  have habs : 0 < |fz_det M| := abs_pos.mpr hd
  have hg2 : FLT_EPSILON < |fz_det (fz_invert_matrix M)| := by
    rw [fz_det_invert_matrix M hg, abs_div, abs_one, lt_div_iff₀ habs]
    have h3 : |fz_det M| < 1 / FLT_EPSILON := h2
    rw [lt_div_iff₀ FLT_EPSILON_pos] at h3
    linarith
  rw [fz_invert_matrix_of_guard (fz_invert_matrix M) hg2, fz_det_invert_matrix M hg,
    fz_invert_matrix_of_guard M hg]
  obtain ⟨a, b, c, d, e, f⟩ := M
  simp only [fz_matrix.mk.injEq]
  have hd2 : a * d - b * c ≠ 0 := hd
  simp only [fz_det] at hd ⊢
  refine ⟨?_, ?_, ?_, ?_, ?_, ?_⟩ <;> field_simp <;> ring

/-- Witness for the amended C3: the matrix `(2,0,0,2,3,4)`, of determinant 4. -/
theorem fz_invert_matrix_twice_witness :
    (|(2 : ℚ) * 2 - 0 * 0| > FLT_EPSILON ∧ |(2 : ℚ) * 2 - 0 * 0| < 1 / FLT_EPSILON) ∧
      fz_invert_matrix (fz_invert_matrix ⟨2, 0, 0, 2, 3, 4⟩) = ⟨2, 0, 0, 2, 3, 4⟩ :=
  ⟨⟨by norm_num [FLT_EPSILON], by norm_num [FLT_EPSILON]⟩,
   fz_invert_matrix_twice ⟨2, 0, 0, 2, 3, 4⟩ (by norm_num [FLT_EPSILON])
     (by norm_num [FLT_EPSILON])⟩

/-! ## Theorems: rectangles -/

/-- The helper `fz_min` is the minimum of the order. -/
theorem fz_min_eq_min (a b : ℚ) : fz_min a b = min a b := by
  unfold fz_min
  rcases lt_trichotomy a b with h | h | h
  · rw [if_pos h, min_eq_left h.le]
  · rw [if_neg (by rw [h]; exact lt_irrefl b), h, min_self]
  · rw [if_neg (not_lt.mpr h.le), min_eq_right h.le]

/-- The helper `fz_max` is the maximum of the order. -/
theorem fz_max_eq_max (a b : ℚ) : fz_max a b = max a b := by
  unfold fz_max
  rcases lt_trichotomy a b with h | h | h
  · rw [if_neg (not_lt.mpr h.le), max_eq_right h.le]
  · rw [if_neg (by rw [h]; exact lt_irrefl b), h, max_self]
  · rw [if_pos h, max_eq_left h.le]

/-- The helper `fz_mini` is the minimum of the order. -/
theorem fz_mini_eq_min (a b : Int) : fz_mini a b = min a b := by
  unfold fz_mini
  rcases lt_trichotomy a b with h | h | h
  · rw [if_pos h, min_eq_left h.le]
  · rw [if_neg (by rw [h]; exact lt_irrefl b), h, min_self]
  · rw [if_neg (not_lt.mpr h.le), min_eq_right h.le]

/-- The helper `fz_maxi` is the maximum of the order. -/
theorem fz_maxi_eq_max (a b : Int) : fz_maxi a b = max a b := by
  unfold fz_maxi
  rcases lt_trichotomy a b with h | h | h
  · rw [if_neg (not_lt.mpr h.le), max_eq_right h.le]
  · rw [if_neg (by rw [h]; exact lt_irrefl b), h, max_self]
  · rw [if_pos h, max_eq_left h.le]

/-- The value of `fz_transform_rect` on a rectangle that is not the infinite
sentinel: the bounding box of the four transformed corners. -/
theorem fz_transform_rect_of_not_infinite (m : fz_matrix) (r : fz_rect)
    (h : ¬ fz_is_infinite_rect r) :
    fz_transform_rect m r =
      { x0 := min (min (r.x0 * m.a + r.y0 * m.c + m.e) (r.x0 * m.a + r.y1 * m.c + m.e))
                (min (r.x1 * m.a + r.y1 * m.c + m.e) (r.x1 * m.a + r.y0 * m.c + m.e))
        y0 := min (min (r.x0 * m.b + r.y0 * m.d + m.f) (r.x0 * m.b + r.y1 * m.d + m.f))
                (min (r.x1 * m.b + r.y1 * m.d + m.f) (r.x1 * m.b + r.y0 * m.d + m.f))
        x1 := max (max (r.x0 * m.a + r.y0 * m.c + m.e) (r.x0 * m.a + r.y1 * m.c + m.e))
                (max (r.x1 * m.a + r.y1 * m.c + m.e) (r.x1 * m.a + r.y0 * m.c + m.e))
        y1 := max (max (r.x0 * m.b + r.y0 * m.d + m.f) (r.x0 * m.b + r.y1 * m.d + m.f))
                (max (r.x1 * m.b + r.y1 * m.d + m.f) (r.x1 * m.b + r.y0 * m.d + m.f)) } := by
  simp only [fz_transform_rect, if_neg h, MIN4, MAX4, fz_min_eq_min, fz_max_eq_max,
    fz_transform_point]

/-- Counterexample to C7 as stated: the inverted rectangle `(2,2,0,0)` is not
the infinite sentinel, and the identity transform returns the bounding box
`(0,0,2,2)` of its corners. -/
theorem fz_transform_rect_identity_counterexample :
    fz_transform_rect fz_identity ⟨2, 2, 0, 0⟩ = ⟨0, 0, 2, 2⟩ ∧
      fz_transform_rect fz_identity ⟨2, 2, 0, 0⟩ ≠ ⟨2, 2, 0, 0⟩ := by
  have hn : ¬ fz_is_infinite_rect ⟨2, 2, 0, 0⟩ := by
    unfold fz_is_infinite_rect fz_infinite_rect
    intro hc
    have h0 := congrArg fz_rect.x0 hc
    norm_num at h0
  have e : fz_transform_rect fz_identity ⟨2, 2, 0, 0⟩ = ⟨0, 0, 2, 2⟩ := by
    rw [fz_transform_rect_of_not_infinite _ _ hn]
    norm_num [fz_identity]
  refine ⟨e, ?_⟩
  rw [e]
  intro hc
  have h0 := congrArg fz_rect.x0 hc
  norm_num at h0

/-- Claim C7, amended: the identity transform returns a rectangle unchanged
when it is the infinite sentinel or has `x0 ≤ x1` and `y0 ≤ y1`. -/
theorem fz_transform_rect_identity (R : fz_rect)
    (h : fz_is_infinite_rect R ∨ (R.x0 ≤ R.x1 ∧ R.y0 ≤ R.y1)) :
    fz_transform_rect fz_identity R = R := by
  by_cases hi : fz_is_infinite_rect R
  · simp only [fz_transform_rect, if_pos hi]
  · rcases h with h | ⟨hx, hy⟩
    · exact absurd h hi
    · rw [fz_transform_rect_of_not_infinite _ _ hi]
      obtain ⟨x0, y0, x1, y1⟩ := R
      simp only [fz_identity, fz_rect.mk.injEq] at hx hy ⊢
      simp only [mul_one, mul_zero, add_zero, zero_add, min_self, max_self]
      exact ⟨min_eq_left hx, by rw [min_eq_left hy, min_eq_right hy, min_self],
        max_eq_right hx, by rw [max_eq_right hy, max_eq_left hy, max_self]⟩

/-- Witness for the amended C7: the unit square. -/
theorem fz_transform_rect_identity_witness :
    (fz_is_infinite_rect ⟨0, 0, 1, 1⟩ ∨ ((0 : ℚ) ≤ 1 ∧ (0 : ℚ) ≤ 1)) ∧
      fz_transform_rect fz_identity ⟨0, 0, 1, 1⟩ = ⟨0, 0, 1, 1⟩ :=
  ⟨Or.inr ⟨by norm_num, by norm_num⟩,
   fz_transform_rect_identity ⟨0, 0, 1, 1⟩ (Or.inr ⟨by norm_num, by norm_num⟩)⟩

/-- Between two bounds, a product with a fixed factor is at least the product
at one of the bounds. -/
theorem mul_lower_corner (k lo hi p : ℚ) (h0 : lo ≤ p) (h1 : p ≤ hi) :
    lo * k ≤ p * k ∨ hi * k ≤ p * k := by
  rcases le_total 0 k with hk | hk
  · exact Or.inl (mul_le_mul_of_nonneg_right h0 hk)
  · exact Or.inr (mul_le_mul_of_nonpos_right h1 hk)

/-- Between two bounds, a product with a fixed factor is at most the product
at one of the bounds. -/
theorem mul_upper_corner (k lo hi p : ℚ) (h0 : lo ≤ p) (h1 : p ≤ hi) :
    p * k ≤ lo * k ∨ p * k ≤ hi * k := by
  rcases le_total 0 k with hk | hk
  · exact Or.inr (mul_le_mul_of_nonneg_right h1 hk)
  · exact Or.inl (mul_le_mul_of_nonpos_right h0 hk)

/-- The least of the four corner images is below the image of every point of
the rectangle, in one coordinate. -/
theorem corner_min_le (a c e x0 y0 x1 y1 px py : ℚ)
    (hx0 : x0 ≤ px) (hx1 : px ≤ x1) (hy0 : y0 ≤ py) (hy1 : py ≤ y1) :
    min (min (x0 * a + y0 * c + e) (x0 * a + y1 * c + e))
        (min (x1 * a + y1 * c + e) (x1 * a + y0 * c + e))
      ≤ px * a + py * c + e := by
  simp only [min_le_iff]
  rcases mul_lower_corner a x0 x1 px hx0 hx1 with hA | hA <;>
    rcases mul_lower_corner c y0 y1 py hy0 hy1 with hC | hC
  · left; left; linarith
  · left; right; linarith
  · right; right; linarith
  · right; left; linarith

/-- The greatest of the four corner images is above the image of every point
of the rectangle, in one coordinate. -/
theorem le_corner_max (a c e x0 y0 x1 y1 px py : ℚ)
    (hx0 : x0 ≤ px) (hx1 : px ≤ x1) (hy0 : y0 ≤ py) (hy1 : py ≤ y1) :
    px * a + py * c + e
      ≤ max (max (x0 * a + y0 * c + e) (x0 * a + y1 * c + e))
          (max (x1 * a + y1 * c + e) (x1 * a + y0 * c + e)) := by
  simp only [le_max_iff]
  rcases mul_upper_corner a x0 x1 px hx0 hx1 with hA | hA <;>
    rcases mul_upper_corner c y0 y1 py hy0 hy1 with hC | hC
  · left; left; linarith
  · left; right; linarith
  · right; right; linarith
  · right; left; linarith

/-- Claim C6: for a rectangle that is not the infinite sentinel and has
`x0 ≤ x1`, `y0 ≤ y1`, the image of every point of the rectangle under
`fz_transform_point` lies in the box returned by `fz_transform_rect`. -/
theorem fz_transform_rect_encloses (M : fz_matrix) (R : fz_rect) (P : fz_point)
    (hi : ¬ fz_is_infinite_rect R) (_hx : R.x0 ≤ R.x1) (_hy : R.y0 ≤ R.y1)
    (hpx : R.x0 ≤ P.x ∧ P.x ≤ R.x1) (hpy : R.y0 ≤ P.y ∧ P.y ≤ R.y1) :
    (fz_transform_rect M R).x0 ≤ (fz_transform_point M P).x ∧
      (fz_transform_point M P).x ≤ (fz_transform_rect M R).x1 ∧
      (fz_transform_rect M R).y0 ≤ (fz_transform_point M P).y ∧
      (fz_transform_point M P).y ≤ (fz_transform_rect M R).y1 := by
  rw [fz_transform_rect_of_not_infinite M R hi]
  simp only [fz_transform_point]
  exact ⟨corner_min_le M.a M.c M.e R.x0 R.y0 R.x1 R.y1 P.x P.y hpx.1 hpx.2 hpy.1 hpy.2,
    le_corner_max M.a M.c M.e R.x0 R.y0 R.x1 R.y1 P.x P.y hpx.1 hpx.2 hpy.1 hpy.2,
    corner_min_le M.b M.d M.f R.x0 R.y0 R.x1 R.y1 P.x P.y hpx.1 hpx.2 hpy.1 hpy.2,
    le_corner_max M.b M.d M.f R.x0 R.y0 R.x1 R.y1 P.x P.y hpx.1 hpx.2 hpy.1 hpy.2⟩

/-- Witness for C6: the quarter turn `(0,1,-1,0,0,0)`, the rectangle
`(0,0,10,20)` and its point `(5,5)`. -/
theorem fz_transform_rect_encloses_witness :
    (¬ fz_is_infinite_rect ⟨0, 0, 10, 20⟩ ∧ (0 : ℚ) ≤ 10 ∧ (0 : ℚ) ≤ 20 ∧
      ((0 : ℚ) ≤ 5 ∧ (5 : ℚ) ≤ 10) ∧ ((0 : ℚ) ≤ 5 ∧ (5 : ℚ) ≤ 20)) ∧
    ((fz_transform_rect ⟨0, 1, -1, 0, 0, 0⟩ ⟨0, 0, 10, 20⟩).x0
        ≤ (fz_transform_point ⟨0, 1, -1, 0, 0, 0⟩ ⟨5, 5⟩).x ∧
      (fz_transform_point ⟨0, 1, -1, 0, 0, 0⟩ ⟨5, 5⟩).x
        ≤ (fz_transform_rect ⟨0, 1, -1, 0, 0, 0⟩ ⟨0, 0, 10, 20⟩).x1 ∧
      (fz_transform_rect ⟨0, 1, -1, 0, 0, 0⟩ ⟨0, 0, 10, 20⟩).y0
        ≤ (fz_transform_point ⟨0, 1, -1, 0, 0, 0⟩ ⟨5, 5⟩).y ∧
      (fz_transform_point ⟨0, 1, -1, 0, 0, 0⟩ ⟨5, 5⟩).y
        ≤ (fz_transform_rect ⟨0, 1, -1, 0, 0, 0⟩ ⟨0, 0, 10, 20⟩).y1) :=
  ⟨⟨by decide, by norm_num, by norm_num, ⟨by norm_num, by norm_num⟩,
      ⟨by norm_num, by norm_num⟩⟩,
   fz_transform_rect_encloses ⟨0, 1, -1, 0, 0, 0⟩ ⟨0, 0, 10, 20⟩ ⟨5, 5⟩ (by decide)
     (by norm_num) (by norm_num) ⟨by norm_num, by norm_num⟩ ⟨by norm_num, by norm_num⟩⟩

/-- The infinite sentinel is not the empty sentinel. -/
theorem fz_infinite_rect_not_empty : ¬ fz_is_empty_rect fz_infinite_rect := by
  decide

/-- The infinite sentinel passes the infinite test. -/
theorem fz_infinite_rect_is_infinite : fz_is_infinite_rect fz_infinite_rect := rfl

/-- The empty sentinel passes the empty test. -/
theorem fz_empty_rect_is_empty : fz_is_empty_rect fz_empty_rect := rfl

/-- Claim C8: with the sentinels tested by exact equality, the infinite
rectangle is neutral for intersection and absorbing for union on every
rectangle that is not the empty sentinel, and the empty rectangle is
absorbing for intersection and neutral for union on every rectangle. -/
theorem fz_rect_sentinel_laws (R : fz_rect) :
    (¬ fz_is_empty_rect R →
        fz_intersect_rect R fz_infinite_rect = R ∧
        fz_union_rect R fz_infinite_rect = fz_infinite_rect) ∧
      fz_intersect_rect R fz_empty_rect = fz_empty_rect ∧
      fz_union_rect R fz_empty_rect = R := by
  refine ⟨fun hne => ⟨?_, ?_⟩, ?_, ?_⟩
  · unfold fz_intersect_rect
    rw [if_neg hne, if_neg fz_infinite_rect_not_empty]
    by_cases hi : fz_is_infinite_rect R
    · rw [if_pos hi]; exact hi.symm
    · rw [if_neg hi, if_pos fz_infinite_rect_is_infinite]
  · unfold fz_union_rect
    rw [if_neg hne, if_neg fz_infinite_rect_not_empty]
    by_cases hi : fz_is_infinite_rect R
    · rw [if_pos hi]; exact hi
    · rw [if_neg hi, if_pos fz_infinite_rect_is_infinite]
  · unfold fz_intersect_rect
    by_cases he : fz_is_empty_rect R
    · rw [if_pos he]
    · rw [if_neg he, if_pos fz_empty_rect_is_empty]
  · unfold fz_union_rect
    by_cases he : fz_is_empty_rect R
    · rw [if_pos he]; exact he.symm
    · rw [if_neg he, if_pos fz_empty_rect_is_empty]

/-- Witness for C8: the rectangle `(0,0,1,1)`, which is not the empty
sentinel. -/
theorem fz_rect_sentinel_laws_witness :
    ¬ fz_is_empty_rect ⟨0, 0, 1, 1⟩ ∧
      fz_intersect_rect ⟨0, 0, 1, 1⟩ fz_infinite_rect = ⟨0, 0, 1, 1⟩ ∧
      fz_union_rect ⟨0, 0, 1, 1⟩ fz_infinite_rect = fz_infinite_rect :=
  ⟨by decide, (fz_rect_sentinel_laws ⟨0, 0, 1, 1⟩).1 (by decide)⟩

/-- Intersection of rational rectangles does not depend on the order of its
arguments. -/
theorem fz_intersect_rect_comm (A B : fz_rect) :
    fz_intersect_rect A B = fz_intersect_rect B A := by
  unfold fz_intersect_rect
  by_cases hea : fz_is_empty_rect A
  · by_cases heb : fz_is_empty_rect B
    · simp only [if_pos hea, if_pos heb]
    · simp only [if_pos hea, if_neg heb]
  · by_cases heb : fz_is_empty_rect B
    · simp only [if_pos heb, if_neg hea]
    · by_cases hia : fz_is_infinite_rect A
      · by_cases hib : fz_is_infinite_rect B
        · simp only [if_neg hea, if_neg heb, if_pos hia, if_pos hib]
          exact hib.trans hia.symm
        · simp only [if_neg hea, if_neg heb, if_pos hia, if_neg hib]
      · by_cases hib : fz_is_infinite_rect B
        · simp only [if_neg hea, if_neg heb, if_neg hia, if_pos hib]
        · simp only [if_neg hea, if_neg heb, if_neg hia, if_neg hib, fz_min_eq_min,
            fz_max_eq_max, min_comm B.x1 A.x1, min_comm B.y1 A.y1, max_comm B.x0 A.x0,
            max_comm B.y0 A.y0]

/-- Union of rational rectangles does not depend on the order of its
arguments. -/
theorem fz_union_rect_comm (A B : fz_rect) :
    fz_union_rect A B = fz_union_rect B A := by
  unfold fz_union_rect
  by_cases hea : fz_is_empty_rect A
  · by_cases heb : fz_is_empty_rect B
    · simp only [if_pos hea, if_pos heb]
      exact heb.trans hea.symm
    · simp only [if_pos hea, if_neg heb]
  · by_cases heb : fz_is_empty_rect B
    · simp only [if_pos heb, if_neg hea]
    · by_cases hia : fz_is_infinite_rect A
      · by_cases hib : fz_is_infinite_rect B
        · simp only [if_neg hea, if_neg heb, if_pos hia, if_pos hib]
          exact hia.trans hib.symm
        · simp only [if_neg hea, if_neg heb, if_pos hia, if_neg hib]
      · by_cases hib : fz_is_infinite_rect B
        · simp only [if_neg hea, if_neg heb, if_neg hia, if_pos hib]
        · simp only [if_neg hea, if_neg heb, if_neg hia, if_neg hib, fz_min_eq_min,
            fz_max_eq_max, min_comm B.x0 A.x0, min_comm B.y0 A.y0, max_comm B.x1 A.x1,
            max_comm B.y1 A.y1]

/-- Intersection of integer rectangles does not depend on the order of its
arguments. -/
theorem fz_intersect_irect_comm (A B : fz_irect) :
    fz_intersect_irect A B = fz_intersect_irect B A := by
  unfold fz_intersect_irect
  by_cases hea : fz_is_empty_irect A
  · by_cases heb : fz_is_empty_irect B
    · simp only [if_pos hea, if_pos heb]
    · simp only [if_pos hea, if_neg heb]
  · by_cases heb : fz_is_empty_irect B
    · simp only [if_pos heb, if_neg hea]
    · by_cases hia : fz_is_infinite_irect A
      · by_cases hib : fz_is_infinite_irect B
        · simp only [if_neg hea, if_neg heb, if_pos hia, if_pos hib]
          exact hib.trans hia.symm
        · simp only [if_neg hea, if_neg heb, if_pos hia, if_neg hib]
      · by_cases hib : fz_is_infinite_irect B
        · simp only [if_neg hea, if_neg heb, if_neg hia, if_pos hib]
        · simp only [if_neg hea, if_neg heb, if_neg hia, if_neg hib, fz_mini_eq_min,
            fz_maxi_eq_max, min_comm B.x1 A.x1, min_comm B.y1 A.y1, max_comm B.x0 A.x0,
            max_comm B.y0 A.y0]

/-- Claim C9: `fz_intersect_rect`, `fz_union_rect` and `fz_intersect_irect`
are commutative on all rectangles, sentinels and inverted rectangles
included. -/
theorem fz_rect_ops_comm :
    (∀ A B : fz_rect, fz_intersect_rect A B = fz_intersect_rect B A) ∧
      (∀ A B : fz_rect, fz_union_rect A B = fz_union_rect B A) ∧
      (∀ A B : fz_irect, fz_intersect_irect A B = fz_intersect_irect B A) :=
  ⟨fz_intersect_rect_comm, fz_union_rect_comm, fz_intersect_irect_comm⟩

/-! ## Theorems: integer rectangles -/

/-- The exclusive or of two integers is negative exactly when one of them
is. -/
theorem int_xor_neg_iff (m n : Int) :
    Int.xor m n < 0 ↔ (m < 0 ∧ 0 ≤ n) ∨ (0 ≤ m ∧ n < 0) := by
  cases m <;> cases n <;> simp [Int.xor, Int.negSucc_lt_zero]
  omega

/-- The conjunction of two integers is negative exactly when both are. -/
theorem int_land_neg_iff (m n : Int) :
    Int.land m n < 0 ↔ m < 0 ∧ n < 0 := by
  cases m <;> cases n <;> simp [Int.land, Int.negSucc_lt_zero]
  all_goals omega

/-- The complement of an integer is negative exactly when the integer is
not. -/
theorem int_not_neg_iff (m : Int) : Int.not m < 0 ↔ 0 ≤ m := by
  cases m <;> simp [Int.not, Int.negSucc_lt_zero]

/-- The complement of an integer is nonnegative exactly when the integer is
negative. -/
theorem int_not_nonneg_iff (m : Int) : 0 ≤ Int.not m ↔ m < 0 := by
  cases m <;> simp [Int.not, Int.negSucc_lt_zero]

/-- The truth table in the comment above `ADD_WITH_SAT`: the sign bit of the
test is set exactly when `a` and `x` have the same sign and `b` the other
one. -/
theorem ADD_WITH_SAT_test_neg_iff (a x b : Int) :
    ADD_WITH_SAT_test a x b < 0 ↔
      (0 ≤ a ∧ 0 ≤ x ∧ b < 0) ∨ (a < 0 ∧ x < 0 ∧ 0 ≤ b) := by
  unfold ADD_WITH_SAT_test
  rw [int_land_neg_iff, int_xor_neg_iff, int_xor_neg_iff, int_not_neg_iff,
    int_not_nonneg_iff]
  omega

/-- On 32-bit operands the test of `ADD_WITH_SAT` on the wrapped sum fires
exactly when the true sum leaves the 32-bit range. -/
theorem ADD_WITH_SAT_test_iff_overflow (a x : Int) (ha : isInt32 a) (hx : isInt32 x) :
    ADD_WITH_SAT_test a x (wrap32 (a + x)) < 0 ↔ ¬ isInt32 (a + x) := by
  unfold isInt32 INT_MIN INT_MAX at *
  rw [ADD_WITH_SAT_test_neg_iff]
  unfold wrap32
  omega

/-- On 32-bit operands `ADD_WITH_SAT` leaves the true sum clamped to the
32-bit range. -/
theorem ADD_WITH_SAT_eq_clamp (a x : Int) (ha : isInt32 a) (hx : isInt32 x) :
    ADD_WITH_SAT a x = clampInt32 (a + x) := by
  unfold isInt32 INT_MIN INT_MAX at ha hx
  unfold ADD_WITH_SAT clampInt32
  simp only [ADD_WITH_SAT_test_neg_iff, wrap32, INT_MIN, INT_MAX]
  split_ifs <;> omega

/-- Claim C5: on a rectangle that is neither sentinel, with 32-bit
coordinates and offsets, every coordinate of `fz_translate_irect` is the
mathematical sum of the coordinate and its offset clamped to
`[INT_MIN, INT_MAX]`, and the sign-bit test of `ADD_WITH_SAT` on the wrapped
sum fires exactly when the true sum is out of range. -/
theorem fz_translate_irect_saturates (a : fz_irect) (xoff yoff : Int)
    (hx0 : isInt32 a.x0) (hy0 : isInt32 a.y0) (hx1 : isInt32 a.x1) (hy1 : isInt32 a.y1)
    (hxoff : isInt32 xoff) (hyoff : isInt32 yoff)
    (hne : ¬ fz_is_empty_irect a) (hni : ¬ fz_is_infinite_irect a) :
    fz_translate_irect a xoff yoff =
        { x0 := clampInt32 (a.x0 + xoff)
          y0 := clampInt32 (a.y0 + yoff)
          x1 := clampInt32 (a.x1 + xoff)
          y1 := clampInt32 (a.y1 + yoff) } ∧
      (ADD_WITH_SAT_test a.x0 xoff (wrap32 (a.x0 + xoff)) < 0 ↔ ¬ isInt32 (a.x0 + xoff)) ∧
      (ADD_WITH_SAT_test a.y0 yoff (wrap32 (a.y0 + yoff)) < 0 ↔ ¬ isInt32 (a.y0 + yoff)) ∧
      (ADD_WITH_SAT_test a.x1 xoff (wrap32 (a.x1 + xoff)) < 0 ↔ ¬ isInt32 (a.x1 + xoff)) ∧
      (ADD_WITH_SAT_test a.y1 yoff (wrap32 (a.y1 + yoff)) < 0 ↔ ¬ isInt32 (a.y1 + yoff)) := by
  refine ⟨?_, ADD_WITH_SAT_test_iff_overflow _ _ hx0 hxoff,
    ADD_WITH_SAT_test_iff_overflow _ _ hy0 hyoff,
    ADD_WITH_SAT_test_iff_overflow _ _ hx1 hxoff,
    ADD_WITH_SAT_test_iff_overflow _ _ hy1 hyoff⟩
  unfold fz_translate_irect
  rw [if_neg hne, if_neg hni, ADD_WITH_SAT_eq_clamp _ _ hx0 hxoff,
    ADD_WITH_SAT_eq_clamp _ _ hy0 hyoff, ADD_WITH_SAT_eq_clamp _ _ hx1 hxoff,
    ADD_WITH_SAT_eq_clamp _ _ hy1 hyoff]

/-- Witness for C5: `(2147483000,0,2147483000,0)` translated by `(10000,0)`
has `x0 = x1 = INT_MAX` and `y0 = y1 = 0`. -/
theorem fz_translate_irect_saturates_witness :
    (isInt32 2147483000 ∧ isInt32 0 ∧ isInt32 10000 ∧
      ¬ fz_is_empty_irect ⟨2147483000, 0, 2147483000, 0⟩ ∧
      ¬ fz_is_infinite_irect ⟨2147483000, 0, 2147483000, 0⟩) ∧
    fz_translate_irect ⟨2147483000, 0, 2147483000, 0⟩ 10000 0
      = ⟨INT_MAX, 0, INT_MAX, 0⟩ :=
  ⟨⟨by decide, by decide, by decide, by decide, by decide⟩,
   (fz_translate_irect_saturates ⟨2147483000, 0, 2147483000, 0⟩ 10000 0
      (by decide) (by decide) (by decide) (by decide) (by decide) (by decide)
      (by decide) (by decide)).1.trans (by decide)⟩

/-! ## Theorems: vectors and expansion -/

/-- Claim C17: `fz_transform_vector` applies the linear part only: the
difference of two transformed points is the transformed difference, and the
result does not depend on the fields `e` and `f` of the matrix. -/
theorem fz_transform_vector_linear (M : fz_matrix) (P Q : fz_point) :
    (fz_transform_point M P).x - (fz_transform_point M Q).x
        = (fz_transform_vector M ⟨P.x - Q.x, P.y - Q.y⟩).x ∧
      (fz_transform_point M P).y - (fz_transform_point M Q).y
        = (fz_transform_vector M ⟨P.x - Q.x, P.y - Q.y⟩).y ∧
      ∀ e f : ℚ, fz_transform_vector ⟨M.a, M.b, M.c, M.d, e, f⟩ P
        = fz_transform_vector M P := by
  refine ⟨?_, ?_, fun e f => rfl⟩
  · simp only [fz_transform_point, fz_transform_vector]
    ring
  · simp only [fz_transform_point, fz_transform_vector]
    ring

/-- The value of `fz_expand_rect` on a rectangle that is neither sentinel. -/
theorem fz_expand_rect_of_not_sentinel (fl : ℚ → ℚ) (R : fz_rect) (d : ℚ)
    (hne : ¬ fz_is_empty_rect R) (hni : ¬ fz_is_infinite_rect R) :
    fz_expand_rect fl R d = ⟨fl (R.x0 - d), fl (R.y0 - d), fl (R.x1 + d), fl (R.y1 + d)⟩ := by
  simp only [fz_expand_rect, if_neg hne, if_neg hni]

/-- The rectangle `(-1,-1,1,1)` shrunk by `-2` is the infinite sentinel under
every rounding that leaves `1` and `-1` as they are, as the rounding to
`float` does. -/
theorem fz_expand_rect_unit_any_rounding (fl : ℚ → ℚ) (h1 : fl 1 = 1) (h2 : fl (-1) = -1) :
    fz_expand_rect fl ⟨-1, -1, 1, 1⟩ (-2) = fz_infinite_rect := by
  have hne : ¬ fz_is_empty_rect ⟨-1, -1, 1, 1⟩ := by decide
  have hni : ¬ fz_is_infinite_rect ⟨-1, -1, 1, 1⟩ := by decide
  rw [fz_expand_rect_of_not_sentinel fl _ _ hne hni]
  have e1 : (-1 : ℚ) - -2 = 1 := by norm_num
  have e2 : (1 : ℚ) + -2 = -1 := by norm_num
  simp only [e1, e2, h1, h2, fz_infinite_rect]

/-- Counterexample to C13 as stated: the rectangle `(-1,-1,1,1)`, of extent 2
in both directions, shrunk by `-2`, more than half of its extent, is exactly
the infinite sentinel `(1,1,-1,-1)`.  All the values are small integers, so
the arithmetic is exact in `float` too. -/
theorem fz_expand_rect_inverted_counterexample :
    ((-1 : ℚ) ≤ 1 ∧ ¬ fz_is_empty_rect ⟨-1, -1, 1, 1⟩ ∧
        ¬ fz_is_infinite_rect ⟨-1, -1, 1, 1⟩ ∧
        (-2 : ℚ) < 0 ∧ -(-2 : ℚ) > (1 - (-1)) / 2) ∧
      fz_expand_rect id ⟨-1, -1, 1, 1⟩ (-2) = ⟨1, 1, -1, -1⟩ ∧
      fz_is_infinite_rect (fz_expand_rect id ⟨-1, -1, 1, 1⟩ (-2)) := by
  have hne : ¬ fz_is_empty_rect ⟨-1, -1, 1, 1⟩ := by decide
  have hni : ¬ fz_is_infinite_rect ⟨-1, -1, 1, 1⟩ := by decide
  have hv : fz_expand_rect id ⟨-1, -1, 1, 1⟩ (-2) = ⟨1, 1, -1, -1⟩ := by
    rw [fz_expand_rect_of_not_sentinel id _ _ hne hni]
    simp only [id, fz_rect.mk.injEq]
    norm_num
  refine ⟨⟨by norm_num, hne, hni, by norm_num, by norm_num⟩, hv, ?_⟩
  rw [hv]
  rfl

/-- Rounding to the nearest multiple of `2^-7`, the spacing of the `float`s
between 65536 and 131072, is monotone. -/
theorem grid_rounding_mono (u v : ℚ) (h : u ≤ v) :
    ((⌊u * 128 + 1 / 2⌋ : Int) : ℚ) / 128 ≤ ((⌊v * 128 + 1 / 2⌋ : Int) : ℚ) / 128 := by
  have h1 : u * 128 + 1 / 2 ≤ v * 128 + 1 / 2 := by linarith
  have h2 : ⌊u * 128 + 1 / 2⌋ ≤ ⌊v * 128 + 1 / 2⌋ := Int.floor_mono h1
  have h3 : ((⌊u * 128 + 1 / 2⌋ : Int) : ℚ) ≤ ((⌊v * 128 + 1 / 2⌋ : Int) : ℚ) := by
    exact_mod_cast h2
  exact div_le_div_of_nonneg_right h3 (by norm_num)

/-- With rounding the inversion need not be strict: under rounding to the
nearest multiple of `2^-7` the rectangle `(100000,100000,100000.5,100000.5)`
shrunk by `-257/1024`, more than half of its extent, comes back with all four
coordinates equal to `100000.25`. -/
theorem fz_expand_rect_rounded_degenerate :
    fz_expand_rect (fun q => ((⌊q * 128 + 1 / 2⌋ : Int) : ℚ) / 128)
        ⟨100000, 100000, 100000.5, 100000.5⟩ (-257 / 1024)
      = ⟨100000.25, 100000.25, 100000.25, 100000.25⟩ := by
  have hne : ¬ fz_is_empty_rect ⟨100000, 100000, 100000.5, 100000.5⟩ := by
    intro hc
    have h0 := congrArg fz_rect.x0 hc
    norm_num [fz_empty_rect] at h0
  have hni : ¬ fz_is_infinite_rect ⟨100000, 100000, 100000.5, 100000.5⟩ := by
    intro hc
    have h0 := congrArg fz_rect.x0 hc
    norm_num [fz_infinite_rect] at h0
  have f0 : ⌊((100000 : ℚ) - -257 / 1024) * 128 + 1 / 2⌋ = 12800032 := by
    rw [Int.floor_eq_iff]
    constructor <;> norm_num
  have f1 : ⌊((100000.5 : ℚ) + -257 / 1024) * 128 + 1 / 2⌋ = 12800032 := by
    rw [Int.floor_eq_iff]
    constructor <;> norm_num
  rw [fz_expand_rect_of_not_sentinel _ _ _ hne hni]
  simp only [f0, f1, fz_rect.mk.injEq]
  norm_num

/-- Claim C13, amended: a rectangle with `x0 ≤ x1`, `y0 ≤ y1` that is neither
sentinel is shrunk by a negative `d` of magnitude above half of its extent.
With arithmetic taken exactly the result is inverted (`x1 < x0` and
`y1 < y0`), is not the empty pattern, and is the infinite pattern exactly
when the rectangle is `(1+d, 1+d, -1-d, -1-d)`.  With the four results
rounded by a monotone rounding the result has `x1 ≤ x0` and `y1 ≤ y0`, and
is not the empty pattern when `x0 - d` and `x1 + d` round to zero only if
they are zero. -/
theorem fz_expand_rect_inverted (R : fz_rect) (d : ℚ)
    (_hx : R.x0 ≤ R.x1) (_hy : R.y0 ≤ R.y1)
    (hne : ¬ fz_is_empty_rect R) (hni : ¬ fz_is_infinite_rect R)
    (_hd : d < 0) (hdx : -d > (R.x1 - R.x0) / 2) (hdy : -d > (R.y1 - R.y0) / 2) :
    ((fz_expand_rect id R d).x1 < (fz_expand_rect id R d).x0 ∧
        (fz_expand_rect id R d).y1 < (fz_expand_rect id R d).y0 ∧
        ¬ fz_is_empty_rect (fz_expand_rect id R d) ∧
        (fz_is_infinite_rect (fz_expand_rect id R d) ↔
          R = ⟨1 + d, 1 + d, -1 - d, -1 - d⟩)) ∧
      (∀ fl : ℚ → ℚ, (∀ u v : ℚ, u ≤ v → fl u ≤ fl v) →
        (fz_expand_rect fl R d).x1 ≤ (fz_expand_rect fl R d).x0 ∧
        (fz_expand_rect fl R d).y1 ≤ (fz_expand_rect fl R d).y0 ∧
        ((fl (R.x0 - d) = 0 → R.x0 - d = 0) → (fl (R.x1 + d) = 0 → R.x1 + d = 0) →
          ¬ fz_is_empty_rect (fz_expand_rect fl R d))) := by
  have hxlt : R.x1 + d < R.x0 - d := by linarith
  have hylt : R.y1 + d < R.y0 - d := by linarith
  constructor
  · rw [fz_expand_rect_of_not_sentinel id R d hne hni]
    obtain ⟨x0, y0, x1, y1⟩ := R
    simp only [id, fz_is_empty_rect, fz_empty_rect, fz_is_infinite_rect, fz_infinite_rect,
      fz_rect.mk.injEq] at hxlt hylt ⊢
    refine ⟨hxlt, hylt, ?_, ?_⟩
    · rintro ⟨h0, -, h1, -⟩
      linarith
    · constructor
      · rintro ⟨h0, h1, h2, h3⟩
        exact ⟨by linarith, by linarith, by linarith, by linarith⟩
      · rintro ⟨h0, h1, h2, h3⟩
        exact ⟨by linarith, by linarith, by linarith, by linarith⟩
  · intro fl hmono
    rw [fz_expand_rect_of_not_sentinel fl R d hne hni]
    refine ⟨hmono _ _ hxlt.le, hmono _ _ hylt.le, ?_⟩
    intro hz0 hz1 hempty
    simp only [fz_is_empty_rect, fz_empty_rect, fz_rect.mk.injEq] at hempty
    have e0 := hz0 hempty.1
    have e1 := hz1 hempty.2.2.1
    linarith

/-- Witness for the amended C13: the rectangle
`(100000,100000,100000.5,100000.5)` shrunk by `-257/1024`, exactly and under
rounding to the nearest multiple of `2^-7`. -/
theorem fz_expand_rect_inverted_witness :
    (((100000 : ℚ) ≤ 100000.5 ∧
        ¬ fz_is_empty_rect ⟨100000, 100000, 100000.5, 100000.5⟩ ∧
        ¬ fz_is_infinite_rect ⟨100000, 100000, 100000.5, 100000.5⟩ ∧
        (-257 / 1024 : ℚ) < 0 ∧ -(-257 / 1024 : ℚ) > (100000.5 - 100000) / 2)) ∧
      (fz_expand_rect id ⟨100000, 100000, 100000.5, 100000.5⟩ (-257 / 1024)).x1
        < (fz_expand_rect id ⟨100000, 100000, 100000.5, 100000.5⟩ (-257 / 1024)).x0 ∧
      (fz_expand_rect (fun q => ((⌊q * 128 + 1 / 2⌋ : Int) : ℚ) / 128)
          ⟨100000, 100000, 100000.5, 100000.5⟩ (-257 / 1024)).x1
        ≤ (fz_expand_rect (fun q => ((⌊q * 128 + 1 / 2⌋ : Int) : ℚ) / 128)
          ⟨100000, 100000, 100000.5, 100000.5⟩ (-257 / 1024)).x0 := by
  have hne : ¬ fz_is_empty_rect ⟨100000, 100000, 100000.5, 100000.5⟩ := by
    intro hc
    have h0 := congrArg fz_rect.x0 hc
    norm_num [fz_empty_rect] at h0
  have hni : ¬ fz_is_infinite_rect ⟨100000, 100000, 100000.5, 100000.5⟩ := by
    intro hc
    have h0 := congrArg fz_rect.x0 hc
    norm_num [fz_infinite_rect] at h0
  have h := fz_expand_rect_inverted ⟨100000, 100000, 100000.5, 100000.5⟩ (-257 / 1024)
    (by norm_num) (by norm_num) hne hni (by norm_num) (by norm_num) (by norm_num)
  exact ⟨⟨by norm_num, hne, hni, by norm_num, by norm_num⟩, h.1.1,
    (h.2 (fun q => ((⌊q * 128 + 1 / 2⌋ : Int) : ℚ) / 128) grid_rounding_mono).1⟩

/-! ## Theorems: conversions to integer rectangles -/

/-- Inside its range `fz_clamp` returns its argument. -/
theorem fz_clamp_of_mem (f lo hi : ℚ) (h1 : lo ≤ f) (h2 : f ≤ hi) :
    fz_clamp f lo hi = f := by
  unfold fz_clamp
  split_ifs with ha hb
  · rfl
  · exact le_antisymm (not_lt.mp hb) h2
  · exact le_antisymm h1 (not_lt.mp ha)

/-- The value of `fz_clamp` lies in its range. -/
theorem fz_clamp_mem (f lo hi : ℚ) (h : lo ≤ hi) :
    lo ≤ fz_clamp f lo hi ∧ fz_clamp f lo hi ≤ hi := by
  unfold fz_clamp
  split_ifs with ha hb
  · exact ⟨ha.le, hb.le⟩
  · exact ⟨h, le_rfl⟩
  · exact ⟨le_rfl, h⟩

/-- Converting an integer-valued float to `int` gives that integer. -/
theorem float_to_int_intCast (z : Int) : float_to_int (z : ℚ) = z := by
  unfold float_to_int
  split_ifs
  · exact Int.floor_intCast z
  · exact Int.ceil_intCast z

/-- The conversion to `int` keeps a float between two integer bounds. -/
theorem float_to_int_mem (x : ℚ) (lo hi : Int) (h1 : (lo : ℚ) ≤ x) (h2 : x ≤ (hi : ℚ)) :
    lo ≤ float_to_int x ∧ float_to_int x ≤ hi := by
  unfold float_to_int
  split_ifs
  · refine ⟨Int.le_floor.mpr h1, ?_⟩
    have h3 : ((⌊x⌋ : Int) : ℚ) ≤ (hi : ℚ) := le_trans (Int.floor_le x) h2
    exact_mod_cast h3
  · refine ⟨?_, Int.ceil_le.mpr h2⟩
    have h3 : (lo : ℚ) ≤ ((⌈x⌉ : Int) : ℚ) := le_trans h1 (Int.le_ceil x)
    exact_mod_cast h3

/-- The clamp and conversion applied to each coordinate by `fz_round_rect`
and `fz_rect_covering_rect` leave an integer of the safe range unchanged. -/
theorem safe_coord_of_mem (z : Int) (h1 : MIN_SAFE_INT ≤ z) (h2 : z ≤ MAX_SAFE_INT) :
    float_to_int (fz_clamp (z : ℚ) MIN_SAFE_INT MAX_SAFE_INT) = z := by
  rw [fz_clamp_of_mem _ _ _ (by exact_mod_cast h1) (by exact_mod_cast h2)]
  exact float_to_int_intCast z

/-- The clamp and conversion applied to each coordinate by `fz_round_rect`
and `fz_rect_covering_rect` always give an integer of the safe range. -/
theorem safe_coord_mem (x : ℚ) :
    MIN_SAFE_INT ≤ float_to_int (fz_clamp x MIN_SAFE_INT MAX_SAFE_INT) ∧
      float_to_int (fz_clamp x MIN_SAFE_INT MAX_SAFE_INT) ≤ MAX_SAFE_INT := by
  have h : ((MIN_SAFE_INT : Int) : ℚ) ≤ ((MAX_SAFE_INT : Int) : ℚ) := by
    norm_num [MIN_SAFE_INT, MAX_SAFE_INT]
  have hc := fz_clamp_mem x MIN_SAFE_INT MAX_SAFE_INT h
  exact float_to_int_mem _ _ _ hc.1 hc.2

/-- An integer moved up by the bias `0.001` still has that integer as its
floor. -/
theorem floor_add_bias (z : Int) : ⌊(z : ℚ) + 0.001⌋ = z := by
  rw [Int.floor_eq_iff]
  constructor <;> norm_num

/-- An integer moved down by the bias `0.001` still has that integer as its
ceiling. -/
theorem ceil_sub_bias (z : Int) : ⌈(z : ℚ) - 0.001⌉ = z := by
  rw [Int.ceil_eq_iff]
  constructor <;> norm_num

/-- Claim C14: an integer rectangle with coordinates in the safe range,
converted by `fz_rect_from_irect` and rounded by `fz_round_rect`, comes back
unchanged. -/
theorem fz_round_rect_from_irect (r : fz_irect)
    (hx0 : -16777216 ≤ r.x0 ∧ r.x0 ≤ 16777216) (hy0 : -16777216 ≤ r.y0 ∧ r.y0 ≤ 16777216)
    (hx1 : -16777216 ≤ r.x1 ∧ r.x1 ≤ 16777216) (hy1 : -16777216 ≤ r.y1 ∧ r.y1 ≤ 16777216) :
    fz_round_rect (fz_rect_from_irect r) = r := by
  obtain ⟨x0, y0, x1, y1⟩ := r
  simp only [fz_round_rect, fz_rect_from_irect, floorf, ceilf, floor_add_bias,
    ceil_sub_bias, fz_irect.mk.injEq]
  exact ⟨safe_coord_of_mem x0 hx0.1 hx0.2, safe_coord_of_mem y0 hy0.1 hy0.2,
    safe_coord_of_mem x1 hx1.1 hx1.2, safe_coord_of_mem y1 hy1.1 hy1.2⟩

/-- Witness for C14: the rectangle `(0,0,10,10)`. -/
theorem fz_round_rect_from_irect_witness :
    (((-16777216 : Int) ≤ 0 ∧ (0 : Int) ≤ 16777216) ∧
        ((-16777216 : Int) ≤ 10 ∧ (10 : Int) ≤ 16777216)) ∧
      fz_round_rect (fz_rect_from_irect ⟨0, 0, 10, 10⟩) = ⟨0, 0, 10, 10⟩ :=
  ⟨⟨by decide, by decide⟩,
   fz_round_rect_from_irect ⟨0, 0, 10, 10⟩ (by decide) (by decide) (by decide) (by decide)⟩

/-- The floor of a float of the safe range passes the clamp and the
conversion of `fz_rect_covering_rect` unchanged. -/
theorem safe_coord_floor (x : ℚ) (h : -16777216 ≤ x ∧ x ≤ 16777216) :
    float_to_int (fz_clamp (floorf x) MIN_SAFE_INT MAX_SAFE_INT) = ⌊x⌋ := by
  unfold floorf
  apply safe_coord_of_mem
  · apply Int.le_floor.mpr
    simpa [MIN_SAFE_INT] using h.1
  · have h3 : ((⌊x⌋ : Int) : ℚ) ≤ ((16777216 : Int) : ℚ) := by
      have := Int.floor_le x
      push_cast
      linarith [h.2]
    exact_mod_cast h3

/-- The ceiling of a float of the safe range passes the clamp and the
conversion of `fz_rect_covering_rect` unchanged. -/
theorem safe_coord_ceil (x : ℚ) (h : -16777216 ≤ x ∧ x ≤ 16777216) :
    float_to_int (fz_clamp (ceilf x) MIN_SAFE_INT MAX_SAFE_INT) = ⌈x⌉ := by
  unfold ceilf
  apply safe_coord_of_mem
  · have h3 : ((-16777216 : Int) : ℚ) ≤ ((⌈x⌉ : Int) : ℚ) := by
      have := Int.le_ceil x
      push_cast
      linarith [h.1]
    exact_mod_cast h3
  · apply Int.ceil_le.mpr
    simpa [MAX_SAFE_INT] using h.2

/-- Claim C15: on a rectangle with coordinates in the safe range,
`fz_rect_covering_rect` returns the tightest integer box that covers it: the
minimum corner is the floor and the maximum corner the ceiling of the
coordinates. -/
theorem fz_rect_covering_rect_covers (R : fz_rect)
    (hx0 : -16777216 ≤ R.x0 ∧ R.x0 ≤ 16777216) (hy0 : -16777216 ≤ R.y0 ∧ R.y0 ≤ 16777216)
    (hx1 : -16777216 ≤ R.x1 ∧ R.x1 ≤ 16777216) (hy1 : -16777216 ≤ R.y1 ∧ R.y1 ≤ 16777216) :
    (((fz_rect_covering_rect R).x0 : ℚ) ≤ R.x0 ∧
        R.x0 < ((fz_rect_covering_rect R).x0 : ℚ) + 1) ∧
      (((fz_rect_covering_rect R).y0 : ℚ) ≤ R.y0 ∧
        R.y0 < ((fz_rect_covering_rect R).y0 : ℚ) + 1) ∧
      (((fz_rect_covering_rect R).x1 : ℚ) - 1 < R.x1 ∧
        R.x1 ≤ ((fz_rect_covering_rect R).x1 : ℚ)) ∧
      (((fz_rect_covering_rect R).y1 : ℚ) - 1 < R.y1 ∧
        R.y1 ≤ ((fz_rect_covering_rect R).y1 : ℚ)) := by
  simp only [fz_rect_covering_rect, safe_coord_floor _ hx0, safe_coord_floor _ hy0,
    safe_coord_ceil _ hx1, safe_coord_ceil _ hy1]
  refine ⟨⟨Int.floor_le _, Int.lt_floor_add_one _⟩, ⟨Int.floor_le _, Int.lt_floor_add_one _⟩,
    ⟨?_, Int.le_ceil _⟩, ⟨?_, Int.le_ceil _⟩⟩
  · linarith [Int.ceil_lt_add_one R.x1]
  · linarith [Int.ceil_lt_add_one R.y1]

/-- Claim C16: every coordinate of `fz_round_rect` and of
`fz_rect_covering_rect` lies between `MIN_SAFE_INT` and `MAX_SAFE_INT`,
whatever the rectangle. -/
theorem fz_irect_conversions_safe (R : fz_rect) :
    ((MIN_SAFE_INT ≤ (fz_round_rect R).x0 ∧ (fz_round_rect R).x0 ≤ MAX_SAFE_INT) ∧
        (MIN_SAFE_INT ≤ (fz_round_rect R).y0 ∧ (fz_round_rect R).y0 ≤ MAX_SAFE_INT) ∧
        (MIN_SAFE_INT ≤ (fz_round_rect R).x1 ∧ (fz_round_rect R).x1 ≤ MAX_SAFE_INT) ∧
        (MIN_SAFE_INT ≤ (fz_round_rect R).y1 ∧ (fz_round_rect R).y1 ≤ MAX_SAFE_INT)) ∧
      ((MIN_SAFE_INT ≤ (fz_rect_covering_rect R).x0 ∧
          (fz_rect_covering_rect R).x0 ≤ MAX_SAFE_INT) ∧
        (MIN_SAFE_INT ≤ (fz_rect_covering_rect R).y0 ∧
          (fz_rect_covering_rect R).y0 ≤ MAX_SAFE_INT) ∧
        (MIN_SAFE_INT ≤ (fz_rect_covering_rect R).x1 ∧
          (fz_rect_covering_rect R).x1 ≤ MAX_SAFE_INT) ∧
        (MIN_SAFE_INT ≤ (fz_rect_covering_rect R).y1 ∧
          (fz_rect_covering_rect R).y1 ≤ MAX_SAFE_INT)) :=
  ⟨⟨safe_coord_mem _, safe_coord_mem _, safe_coord_mem _, safe_coord_mem _⟩,
   ⟨safe_coord_mem _, safe_coord_mem _, safe_coord_mem _, safe_coord_mem _⟩⟩

/-- An integer within one below a float that lies strictly between two
consecutive integers is the lower of the two. -/
theorem int_eq_of_floor_bounds (b z : Int) (x : ℚ) (hz : (z : ℚ) ≤ x) (hz1 : x < (z : ℚ) + 1)
    (h1 : (b : ℚ) ≤ x) (h2 : x < (b : ℚ) + 1) : b = z := by
  have ha : (b : ℚ) < (z : ℚ) + 1 := lt_of_le_of_lt h1 hz1
  have hb : (z : ℚ) < (b : ℚ) + 1 := lt_of_le_of_lt hz h2
  have ha2 : b < z + 1 := by exact_mod_cast ha
  have hb2 : z < b + 1 := by exact_mod_cast hb
  omega

/-- An integer within one above a float that lies strictly between two
consecutive integers is the upper of the two. -/
theorem int_eq_of_ceil_bounds (b z : Int) (x : ℚ) (hz : (z : ℚ) - 1 < x) (hz1 : x ≤ (z : ℚ))
    (h1 : (b : ℚ) - 1 < x) (h2 : x ≤ (b : ℚ)) : b = z := by
  have ha : (b : ℚ) - 1 < (z : ℚ) := lt_of_lt_of_le h1 hz1
  have hb : (z : ℚ) - 1 < (b : ℚ) := lt_of_lt_of_le hz h2
  have ha2 : b - 1 < z := by exact_mod_cast ha
  have hb2 : z - 1 < b := by exact_mod_cast hb
  omega

/-- Witness for C15: the rectangle `(0.1,0.1,9.9,9.9)` is covered by
`(0,0,10,10)`, the only integer box within the bounds of the claim. -/
theorem fz_rect_covering_rect_covers_witness :
    (((-16777216 : ℚ) ≤ 0.1 ∧ (0.1 : ℚ) ≤ 16777216) ∧
        ((-16777216 : ℚ) ≤ 9.9 ∧ (9.9 : ℚ) ≤ 16777216)) ∧
      fz_rect_covering_rect ⟨0.1, 0.1, 9.9, 9.9⟩ = ⟨0, 0, 10, 10⟩ := by
  have hlo : (-16777216 : ℚ) ≤ 0.1 ∧ (0.1 : ℚ) ≤ 16777216 := by norm_num
  have hhi : (-16777216 : ℚ) ≤ 9.9 ∧ (9.9 : ℚ) ≤ 16777216 := by norm_num
  have h := fz_rect_covering_rect_covers ⟨0.1, 0.1, 9.9, 9.9⟩ hlo hlo hhi hhi
  refine ⟨⟨hlo, hhi⟩, ?_⟩
  generalize fz_rect_covering_rect ⟨0.1, 0.1, 9.9, 9.9⟩ = b at h ⊢
  obtain ⟨b0, b1, b2, b3⟩ := b
  obtain ⟨⟨h1, h2⟩, ⟨h3, h4⟩, ⟨h5, h6⟩, ⟨h7, h8⟩⟩ := h
  simp only at h1 h2 h3 h4 h5 h6 h7 h8
  simp only [fz_irect.mk.injEq]
  exact ⟨int_eq_of_floor_bounds b0 0 0.1 (by norm_num) (by norm_num) h1 h2,
    int_eq_of_floor_bounds b1 0 0.1 (by norm_num) (by norm_num) h3 h4,
    int_eq_of_ceil_bounds b2 10 9.9 (by norm_num) (by norm_num) h5 h6,
    int_eq_of_ceil_bounds b3 10 9.9 (by norm_num) (by norm_num) h7 h8⟩

/-! ## Theorems: rotation -/

/-- The first loop of `fz_rotate` leaves an angle that is not negative as it
is, whatever the bound. -/
theorem fz_rotate_loop_neg_of_nonneg (fuel : Nat) (theta : ℚ) (h : 0 ≤ theta) :
    fz_rotate_loop_neg fuel theta = some theta := by
  cases fuel <;> simp only [fz_rotate_loop_neg, if_neg (not_lt.mpr h)]

/-- The second loop of `fz_rotate` leaves an angle below 360 as it is,
whatever the bound. -/
theorem fz_rotate_loop_big_of_lt (fuel : Nat) (theta : ℚ) (h : theta < 360) :
    fz_rotate_loop_big fuel theta = some theta := by
  cases fuel <;> simp only [fz_rotate_loop_big, if_neg (not_le.mpr h)]

/-- The first loop of `fz_rotate` ends within `n` iterations when
`theta + 360 * n` is not negative; it leaves a nonnegative angle, below 360
when it ran at all, that differs from `theta` by a multiple of 360. -/
theorem fz_rotate_loop_neg_spec (n : Nat) :
    ∀ theta : ℚ, 0 ≤ theta + 360 * n →
      ∃ r : ℚ, (∀ extra : Nat, fz_rotate_loop_neg (n + extra) theta = some r) ∧
        0 ≤ r ∧ (theta < 0 → r < 360) ∧ (0 ≤ theta → r = theta) ∧
        ∃ k : Int, r = theta + 360 * k := by
  induction n with
  | zero =>
    intro theta h
    have h0 : 0 ≤ theta := by simpa using h
    exact ⟨theta, fun extra => fz_rotate_loop_neg_of_nonneg _ theta h0, h0,
      fun hn => absurd hn (not_lt.mpr h0), fun _ => rfl, 0, by simp⟩
  | succ n ih =>
    intro theta h
    by_cases hneg : theta < 0
    · have h1 : 0 ≤ (theta + 360) + 360 * (n : ℚ) := by
        push_cast at h
        linarith
      obtain ⟨r, hr, hr0, hrlt, hreq, k, hk⟩ := ih (theta + 360) h1
      refine ⟨r, ?_, hr0, ?_, fun h0 => absurd hneg (not_lt.mpr h0), k + 1, ?_⟩
      · intro extra
        have hfuel : n + 1 + extra = (n + extra) + 1 := by omega
        rw [hfuel]
        simp only [fz_rotate_loop_neg, if_pos hneg]
        exact hr extra
      · intro _
        by_cases h2 : theta + 360 < 0
        · exact hrlt h2
        · rw [hreq (not_lt.mp h2)]
          linarith
      · rw [hk]
        push_cast
        ring
    · have h0 : 0 ≤ theta := not_lt.mp hneg
      exact ⟨theta, fun extra => fz_rotate_loop_neg_of_nonneg _ theta h0, h0,
        fun hn => absurd hn hneg, fun _ => rfl, 0, by simp⟩

/-- The second loop of `fz_rotate` ends within `n` iterations on a
nonnegative angle below `360 * (n + 1)`; it leaves an angle in `[0, 360)`
that differs from `theta` by a multiple of 360. -/
theorem fz_rotate_loop_big_spec (n : Nat) :
    ∀ theta : ℚ, 0 ≤ theta → theta < 360 * ((n : ℚ) + 1) →
      ∃ r : ℚ, (∀ extra : Nat, fz_rotate_loop_big (n + extra) theta = some r) ∧
        0 ≤ r ∧ r < 360 ∧ ∃ k : Int, r = theta + 360 * k := by
  induction n with
  | zero =>
    intro theta h0 h
    have hlt : theta < 360 := by simpa using h
    exact ⟨theta, fun extra => fz_rotate_loop_big_of_lt _ theta hlt, h0, hlt, 0, by simp⟩
  | succ n ih =>
    intro theta h0 h
    by_cases hbig : theta ≥ 360
    · have h1 : 0 ≤ theta - 360 := by linarith
      have h2 : theta - 360 < 360 * ((n : ℚ) + 1) := by
        push_cast at h
        linarith
      obtain ⟨r, hr, hr0, hrlt, k, hk⟩ := ih (theta - 360) h1 h2
      refine ⟨r, ?_, hr0, hrlt, k - 1, ?_⟩
      · intro extra
        have hfuel : n + 1 + extra = (n + extra) + 1 := by omega
        rw [hfuel]
        simp only [fz_rotate_loop_big, if_pos hbig]
        exact hr extra
      · rw [hk]
        push_cast
        ring
    · have hlt : theta < 360 := not_le.mp hbig
      exact ⟨theta, fun extra => fz_rotate_loop_big_of_lt _ theta hlt, h0, hlt, 0, by simp⟩

/-- Both loops of `fz_rotate` end on every angle: from some bound on, the
first leaves `t`, the second leaves `r` on `t`, and `r` lies in `[0, 360)`
and differs from the angle by a multiple of 360. -/
theorem fz_rotate_loops_spec (theta : ℚ) :
    ∃ (N : Nat) (t r : ℚ),
      (∀ extra : Nat, fz_rotate_loop_neg (N + extra) theta = some t) ∧
      (∀ extra : Nat, fz_rotate_loop_big (N + extra) t = some r) ∧
      (∀ extra : Nat, fz_rotate_normalize (N + extra) theta = some r) ∧
      0 ≤ r ∧ r < 360 ∧ ∃ k : Int, r = theta + 360 * k := by
  obtain ⟨n1, hn1⟩ := exists_nat_ge (-theta / 360)
  have h1 : 0 ≤ theta + 360 * (n1 : ℚ) := by
    have := (div_le_iff₀ (by norm_num : (0 : ℚ) < 360)).mp hn1
    linarith
  obtain ⟨t, ht, ht0, -, -, k1, hk1⟩ := fz_rotate_loop_neg_spec n1 theta h1
  obtain ⟨n2, hn2⟩ := exists_nat_ge (t / 360)
  have h2 : t < 360 * ((n2 : ℚ) + 1) := by
    have := (div_le_iff₀ (by norm_num : (0 : ℚ) < 360)).mp hn2
    linarith
  obtain ⟨r, hr, hr0, hrlt, k2, hk2⟩ := fz_rotate_loop_big_spec n2 t ht0 h2
  have hneg : ∀ extra : Nat, fz_rotate_loop_neg (n1 + n2 + extra) theta = some t := by
    intro extra
    rw [Nat.add_assoc]
    exact ht (n2 + extra)
  have hbig : ∀ extra : Nat, fz_rotate_loop_big (n1 + n2 + extra) t = some r := by
    intro extra
    have hfuel : n1 + n2 + extra = n2 + (n1 + extra) := by omega
    rw [hfuel]
    exact hr (n1 + extra)
  refine ⟨n1 + n2, t, r, hneg, hbig, ?_, hr0, hrlt, k1 + k2, ?_⟩
  · intro extra
    simp only [fz_rotate_normalize, hneg extra, hbig extra]
  · rw [hk2, hk1]
    push_cast
    ring

/-- Claim C18: on every angle the two normalisation loops of `fz_rotate`
terminate, and the angle they leave lies in `[0, 360)` and differs from the
input by an integer multiple of 360. -/
theorem fz_rotate_loops_terminate (theta : ℚ) :
    ∃ (N : Nat) (t r : ℚ),
      (∀ extra : Nat, fz_rotate_loop_neg (N + extra) theta = some t) ∧
      (∀ extra : Nat, fz_rotate_loop_big (N + extra) t = some r) ∧
      (∀ extra : Nat, fz_rotate_normalize (N + extra) theta = some r) ∧
      0 ≤ r ∧ r < 360 ∧ ∃ k : Int, r = theta + 360 * k :=
  fz_rotate_loops_spec theta

/-- Two angles of `[0, 360)` that differ by a multiple of 360 are equal. -/
theorem angle_unique (r1 r2 : ℚ) (m : Int) (h : r1 = r2 + 360 * m)
    (h1 : 0 ≤ r1) (h1lt : r1 < 360) (h2 : 0 ≤ r2) (h2lt : r2 < 360) : r1 = r2 := by
  have ha : (m : ℚ) < 1 := by linarith
  have hb : (-1 : ℚ) < (m : ℚ) := by linarith
  have ha2 : m < 1 := by exact_mod_cast ha
  have hb2 : -1 < m := by exact_mod_cast hb
  have hm : m = 0 := by omega
  rw [h, hm]
  simp

/-- Claim C11: for every angle `k`, `fz_rotate (360 + k)` and `fz_rotate k`
both return, and return the same matrix, whatever `sinf`, `cosf` and `M_PI`
are. -/
theorem fz_rotate_add_360 (sinf cosf : ℚ → ℚ) (M_PI k : ℚ) :
    ∃ (N : Nat) (m : fz_matrix), ∀ extra : Nat,
      fz_rotate sinf cosf M_PI (N + extra) (360 + k) = some m ∧
      fz_rotate sinf cosf M_PI (N + extra) k = some m := by
  obtain ⟨N1, -, r1, -, -, hn1, h10, h1lt, k1, hk1⟩ := fz_rotate_loops_spec (360 + k)
  obtain ⟨N2, -, r2, -, -, hn2, h20, h2lt, k2, hk2⟩ := fz_rotate_loops_spec k
  have heq : r1 = r2 := by
    apply angle_unique r1 r2 (1 + k1 - k2) _ h10 h1lt h20 h2lt
    rw [hk1, hk2]
    push_cast
    ring
  refine ⟨N1 + N2, fz_rotate_matrix sinf cosf M_PI r2, fun extra => ⟨?_, ?_⟩⟩
  · have hfuel : N1 + N2 + extra = N1 + (N2 + extra) := by omega
    simp only [fz_rotate, hfuel, hn1 (N2 + extra), heq]
  · have hfuel : N1 + N2 + extra = N2 + (N1 + extra) := by omega
    simp only [fz_rotate, hfuel, hn2 (N1 + extra)]

/-- On the angle 90 neither loop of `fz_rotate` runs, and the branch of
the exact quarter turn is taken. -/
theorem fz_rotate_90_value (sinf cosf : ℚ → ℚ) (M_PI : ℚ) (fuel : Nat) :
    fz_rotate sinf cosf M_PI fuel 90 = some ⟨0, 1, -1, 0, 0, 0⟩ := by
  have hn : fz_rotate_normalize fuel 90 = some 90 := by
    simp only [fz_rotate_normalize, fz_rotate_loop_neg_of_nonneg fuel 90 (by norm_num),
      fz_rotate_loop_big_of_lt fuel 90 (by norm_num)]
  simp only [fz_rotate, hn]
  norm_num [fz_rotate_matrix, FLT_EPSILON]

/-- The box returned by `fz_transform_rect` for the exact quarter turn. -/
theorem fz_transform_rect_quarter (R : fz_rect) (hi : ¬ fz_is_infinite_rect R)
    (hx : R.x0 ≤ R.x1) (hy : R.y0 ≤ R.y1) :
    fz_transform_rect ⟨0, 1, -1, 0, 0, 0⟩ R = ⟨-R.y1, R.x0, -R.y0, R.x1⟩ := by
  rw [fz_transform_rect_of_not_infinite _ _ hi]
  obtain ⟨x0, y0, x1, y1⟩ := R
  simp only [fz_rect.mk.injEq] at hx hy ⊢
  simp only [mul_zero, mul_one, zero_add, add_zero, mul_neg, min_self, max_self]
  have hny : -y1 ≤ -y0 := neg_le_neg hy
  exact ⟨by rw [min_eq_right hny, min_eq_left hny, min_self], min_eq_left hx,
    by rw [max_eq_left hny, max_eq_right hny, max_self], max_eq_right hx⟩

/-- Claim C12: `fz_rotate 90` is exactly `(0,1,-1,0,0,0)`, and it maps a
rectangle with `x0 ≤ x1`, `y0 ≤ y1` that is not the infinite sentinel to the
box `(-y1, x0, -y0, x1)`, whose width is the height and whose height is the
width of the rectangle. -/
theorem fz_rotate_90_rect (sinf cosf : ℚ → ℚ) (M_PI : ℚ) (fuel : Nat) (R : fz_rect)
    (hi : ¬ fz_is_infinite_rect R) (hx : R.x0 ≤ R.x1) (hy : R.y0 ≤ R.y1) :
    fz_rotate sinf cosf M_PI fuel 90 = some ⟨0, 1, -1, 0, 0, 0⟩ ∧
      (fz_rotate sinf cosf M_PI fuel 90).map (fun m => fz_transform_rect m R)
        = some ⟨-R.y1, R.x0, -R.y0, R.x1⟩ ∧
      (fz_transform_rect ⟨0, 1, -1, 0, 0, 0⟩ R).x1 - (fz_transform_rect ⟨0, 1, -1, 0, 0, 0⟩ R).x0
        = R.y1 - R.y0 ∧
      (fz_transform_rect ⟨0, 1, -1, 0, 0, 0⟩ R).y1 - (fz_transform_rect ⟨0, 1, -1, 0, 0, 0⟩ R).y0
        = R.x1 - R.x0 := by
  refine ⟨fz_rotate_90_value sinf cosf M_PI fuel, ?_, ?_, ?_⟩
  · rw [fz_rotate_90_value sinf cosf M_PI fuel, Option.map_some',
      fz_transform_rect_quarter R hi hx hy]
  · rw [fz_transform_rect_quarter R hi hx hy]
    ring
  · rw [fz_transform_rect_quarter R hi hx hy]

/-- Witness for C12: the rectangle `(0,0,10,20)` is turned into a box of
width 20 and height 10. -/
theorem fz_rotate_90_rect_witness :
    (¬ fz_is_infinite_rect ⟨0, 0, 10, 20⟩ ∧ (0 : ℚ) ≤ 10 ∧ (0 : ℚ) ≤ 20) ∧
      fz_rotate (fun x => x) (fun x => x) 3 0 90 = some ⟨0, 1, -1, 0, 0, 0⟩ ∧
      (fz_transform_rect ⟨0, 1, -1, 0, 0, 0⟩ ⟨0, 0, 10, 20⟩).x1
        - (fz_transform_rect ⟨0, 1, -1, 0, 0, 0⟩ ⟨0, 0, 10, 20⟩).x0 = 20 ∧
      (fz_transform_rect ⟨0, 1, -1, 0, 0, 0⟩ ⟨0, 0, 10, 20⟩).y1
        - (fz_transform_rect ⟨0, 1, -1, 0, 0, 0⟩ ⟨0, 0, 10, 20⟩).y0 = 10 := by
  have h := fz_rotate_90_rect (fun x => x) (fun x => x) 3 0 ⟨0, 0, 10, 20⟩ (by decide)
    (by norm_num) (by norm_num)
  refine ⟨⟨by decide, by norm_num, by norm_num⟩, h.1, ?_, ?_⟩
  · rw [h.2.2.1]
    norm_num
  · rw [h.2.2.2]
    norm_num

/-! ## Theorems: orientation and intersection of integer rectangles -/

/-- The value of `fz_translate_irect` on a rectangle that is neither
sentinel, with 32-bit coordinates and offsets. -/
theorem fz_translate_irect_eq_clamp (a : fz_irect) (xoff yoff : Int)
    (hx0 : isInt32 a.x0) (hy0 : isInt32 a.y0) (hx1 : isInt32 a.x1) (hy1 : isInt32 a.y1)
    (hxoff : isInt32 xoff) (hyoff : isInt32 yoff)
    (hne : ¬ fz_is_empty_irect a) (hni : ¬ fz_is_infinite_irect a) :
    fz_translate_irect a xoff yoff =
      ⟨clampInt32 (a.x0 + xoff), clampInt32 (a.y0 + yoff), clampInt32 (a.x1 + xoff),
        clampInt32 (a.y1 + yoff)⟩ := by
  unfold fz_translate_irect
  rw [if_neg hne, if_neg hni, ADD_WITH_SAT_eq_clamp _ _ hx0 hxoff,
    ADD_WITH_SAT_eq_clamp _ _ hy0 hyoff, ADD_WITH_SAT_eq_clamp _ _ hx1 hxoff,
    ADD_WITH_SAT_eq_clamp _ _ hy1 hyoff]

/-- The clamped sum is monotone in the coordinate. -/
theorem clampInt32_mono (u v : Int) (h : u ≤ v) : clampInt32 u ≤ clampInt32 v := by
  unfold clampInt32 INT_MIN INT_MAX
  split_ifs <;> omega

/-- The clamped sum of a 32-bit coordinate and a nonnegative offset is not
below the coordinate. -/
theorem le_clampInt32_add (a x : Int) (ha : isInt32 a) (hx : 0 ≤ x) :
    a ≤ clampInt32 (a + x) := by
  unfold isInt32 INT_MIN INT_MAX at ha
  unfold clampInt32 INT_MIN INT_MAX
  split_ifs <;> omega

/-- The clamped sum of a 32-bit coordinate and a nonpositive offset is not
above the coordinate. -/
theorem clampInt32_add_le (a x : Int) (ha : isInt32 a) (hx : x ≤ 0) :
    clampInt32 (a + x) ≤ a := by
  unfold isInt32 INT_MIN INT_MAX at ha
  unfold clampInt32 INT_MIN INT_MAX
  split_ifs <;> omega

/-- Claim C19: on a rectangle that is neither sentinel, with `x0 ≤ x1` and
`y0 ≤ y1` and 32-bit coordinates and offsets, `fz_translate_irect` returns a
rectangle with `x0 ≤ x1` and `y0 ≤ y1`, each coordinate of which has moved in
the direction of its offset. -/
theorem fz_translate_irect_orientation (a : fz_irect) (xoff yoff : Int)
    (hx0 : isInt32 a.x0) (hy0 : isInt32 a.y0) (hx1 : isInt32 a.x1) (hy1 : isInt32 a.y1)
    (hxoff : isInt32 xoff) (hyoff : isInt32 yoff)
    (hne : ¬ fz_is_empty_irect a) (hni : ¬ fz_is_infinite_irect a)
    (hx : a.x0 ≤ a.x1) (hy : a.y0 ≤ a.y1) :
    (fz_translate_irect a xoff yoff).x0 ≤ (fz_translate_irect a xoff yoff).x1 ∧
      (fz_translate_irect a xoff yoff).y0 ≤ (fz_translate_irect a xoff yoff).y1 ∧
      (0 ≤ xoff → a.x0 ≤ (fz_translate_irect a xoff yoff).x0 ∧
        a.x1 ≤ (fz_translate_irect a xoff yoff).x1) ∧
      (xoff ≤ 0 → (fz_translate_irect a xoff yoff).x0 ≤ a.x0 ∧
        (fz_translate_irect a xoff yoff).x1 ≤ a.x1) ∧
      (0 ≤ yoff → a.y0 ≤ (fz_translate_irect a xoff yoff).y0 ∧
        a.y1 ≤ (fz_translate_irect a xoff yoff).y1) ∧
      (yoff ≤ 0 → (fz_translate_irect a xoff yoff).y0 ≤ a.y0 ∧
        (fz_translate_irect a xoff yoff).y1 ≤ a.y1) := by
  rw [fz_translate_irect_eq_clamp a xoff yoff hx0 hy0 hx1 hy1 hxoff hyoff hne hni]
  exact ⟨clampInt32_mono _ _ (by omega), clampInt32_mono _ _ (by omega),
    fun h => ⟨le_clampInt32_add _ _ hx0 h, le_clampInt32_add _ _ hx1 h⟩,
    fun h => ⟨clampInt32_add_le _ _ hx0 h, clampInt32_add_le _ _ hx1 h⟩,
    fun h => ⟨le_clampInt32_add _ _ hy0 h, le_clampInt32_add _ _ hy1 h⟩,
    fun h => ⟨clampInt32_add_le _ _ hy0 h, clampInt32_add_le _ _ hy1 h⟩⟩

/-- Witness for C19: `(2147483000,0,2147483600,5)` pushed right by `10000`
and up by `-3`. -/
theorem fz_translate_irect_orientation_witness :
    (isInt32 2147483000 ∧ isInt32 0 ∧ isInt32 2147483600 ∧ isInt32 5 ∧ isInt32 10000 ∧
        isInt32 (-3) ∧ ¬ fz_is_empty_irect ⟨2147483000, 0, 2147483600, 5⟩ ∧
        ¬ fz_is_infinite_irect ⟨2147483000, 0, 2147483600, 5⟩ ∧
        (2147483000 : Int) ≤ 2147483600 ∧ (0 : Int) ≤ 5) ∧
      (fz_translate_irect ⟨2147483000, 0, 2147483600, 5⟩ 10000 (-3)).x0
        ≤ (fz_translate_irect ⟨2147483000, 0, 2147483600, 5⟩ 10000 (-3)).x1 ∧
      (fz_translate_irect ⟨2147483000, 0, 2147483600, 5⟩ 10000 (-3)).y0
        ≤ (fz_translate_irect ⟨2147483000, 0, 2147483600, 5⟩ 10000 (-3)).y1 :=
  ⟨⟨by decide, by decide, by decide, by decide, by decide, by decide, by decide, by decide,
      by decide, by decide⟩,
   (fz_translate_irect_orientation ⟨2147483000, 0, 2147483600, 5⟩ 10000 (-3)
      (by decide) (by decide) (by decide) (by decide) (by decide) (by decide) (by decide)
      (by decide) (by decide) (by decide)).1,
   (fz_translate_irect_orientation ⟨2147483000, 0, 2147483600, 5⟩ 10000 (-3)
      (by decide) (by decide) (by decide) (by decide) (by decide) (by decide) (by decide)
      (by decide) (by decide) (by decide)).2.1⟩

/-- Claim C20: on integer rectangles with `x0 ≤ x1` and `y0 ≤ y1`,
`fz_intersect_irect` is the intersection of the half-open pixel regions, and
its result has `x0 ≤ x1`, `y0 ≤ y1` and is not the infinite sentinel. -/
theorem fz_intersect_irect_is_intersection (A B : fz_irect) (px py : Int)
    (hAx : A.x0 ≤ A.x1) (hAy : A.y0 ≤ A.y1) (hBx : B.x0 ≤ B.x1) (hBy : B.y0 ≤ B.y1) :
    (((fz_intersect_irect A B).x0 ≤ px ∧ px < (fz_intersect_irect A B).x1 ∧
          (fz_intersect_irect A B).y0 ≤ py ∧ py < (fz_intersect_irect A B).y1) ↔
        ((A.x0 ≤ px ∧ px < A.x1 ∧ A.y0 ≤ py ∧ py < A.y1) ∧
          (B.x0 ≤ px ∧ px < B.x1 ∧ B.y0 ≤ py ∧ py < B.y1))) ∧
      (fz_intersect_irect A B).x0 ≤ (fz_intersect_irect A B).x1 ∧
      (fz_intersect_irect A B).y0 ≤ (fz_intersect_irect A B).y1 ∧
      ¬ fz_is_infinite_irect (fz_intersect_irect A B) := by
  obtain ⟨a0, a1, a2, a3⟩ := A
  obtain ⟨b0, b1, b2, b3⟩ := B
  simp only at hAx hAy hBx hBy
  simp only [fz_intersect_irect, fz_is_empty_irect, fz_empty_irect, fz_is_infinite_irect,
    fz_infinite_irect, fz_irect.mk.injEq, fz_mini_eq_min, fz_maxi_eq_max]
  split_ifs with h1 h2 h3 h4 h5 <;> simp only [fz_irect.mk.injEq] <;> omega

/-- Witness for C20: the rectangles `(0,0,10,10)` and `(5,5,20,20)` and the
pixel `(7,7)`. -/
theorem fz_intersect_irect_is_intersection_witness :
    ((0 : Int) ≤ 10 ∧ (5 : Int) ≤ 20) ∧
      ((((fz_intersect_irect ⟨0, 0, 10, 10⟩ ⟨5, 5, 20, 20⟩).x0 ≤ 7 ∧
            7 < (fz_intersect_irect ⟨0, 0, 10, 10⟩ ⟨5, 5, 20, 20⟩).x1 ∧
            (fz_intersect_irect ⟨0, 0, 10, 10⟩ ⟨5, 5, 20, 20⟩).y0 ≤ 7 ∧
            7 < (fz_intersect_irect ⟨0, 0, 10, 10⟩ ⟨5, 5, 20, 20⟩).y1) ↔
          (((0 : Int) ≤ 7 ∧ (7 : Int) < 10 ∧ (0 : Int) ≤ 7 ∧ (7 : Int) < 10) ∧
            ((5 : Int) ≤ 7 ∧ (7 : Int) < 20 ∧ (5 : Int) ≤ 7 ∧ (7 : Int) < 20))) ∧
        (fz_intersect_irect ⟨0, 0, 10, 10⟩ ⟨5, 5, 20, 20⟩).x0
          ≤ (fz_intersect_irect ⟨0, 0, 10, 10⟩ ⟨5, 5, 20, 20⟩).x1 ∧
        (fz_intersect_irect ⟨0, 0, 10, 10⟩ ⟨5, 5, 20, 20⟩).y0
          ≤ (fz_intersect_irect ⟨0, 0, 10, 10⟩ ⟨5, 5, 20, 20⟩).y1 ∧
        ¬ fz_is_infinite_irect (fz_intersect_irect ⟨0, 0, 10, 10⟩ ⟨5, 5, 20, 20⟩)) :=
  ⟨⟨by decide, by decide⟩,
   fz_intersect_irect_is_intersection ⟨0, 0, 10, 10⟩ ⟨5, 5, 20, 20⟩ 7 7 (by decide)
     (by decide) (by decide) (by decide)⟩
